import Mathlib

/-!
Verification development for the crustasync file-synchronisation engine.

The Rust sources are shallowly embedded:
* `src/crustasyncfs/base.rs` — the `Node` tree model, BFS iterator, snapshot
  cache (`get_tree` and friends);
* `src/crustasyncfs/local.rs` / `googledrive.rs` — the recursive tree/hash
  construction `build_node`;
* `src/diff.rs` — `node_hash`, the hash/path tables, `build_task_queue`,
  `dedup_move_tasks`, `dedup_del_tasks`, and the executor `process_tasks`.

Modelling conventions:
* `PathBuf` is a list of path components (`Path`); the sync root is `[]`.
  `Path::starts_with` is component-wise list prefix, as in Rust.
* SHA-256 is modelled as an injective function of the input byte stream
  whose digests carry four leading padding bytes, so that overwriting the
  first four bytes (as `node_hash` does) never identifies digests of
  distinct inputs.  This is the standard collision-free idealisation of the
  real hash (distinct inputs give digests that also differ beyond byte 4).
* String bytes are modelled as the list of character code points (UTF-8 is
  order- and equality-preserving on these); `to_lowercase` is modelled on
  the ASCII range.
* Rust's `sort_by_key` (a stable sort) is modelled by a stable structural
  insertion sort.
* Rust `HashMap` iteration order is unspecified; it is modelled as an
  association list in insertion order.  `Uuid::new_v4` freshness is
  modelled by a counter threaded through the computation.
-/

namespace Crustasync

/-- A filesystem path relative to the sync root, as a list of components.
`PathBuf::from("")` (the root) is `[]`. -/
abbrev Path := List String

/-- Rust `Path::starts_with`: component-wise prefix test. -/
def pathStartsWith (p base : Path) : Bool := List.isPrefixOf base p

/-- Lexicographic order on byte lists (Rust `Ord` on strings compares the
UTF-8 bytes). -/
def listNatLe : List Nat → List Nat → Bool
  | [], _ => true
  | _ :: _, [] => false
  | a :: as, b :: bs =>
    if a < b then true
    else if b < a then false
    else listNatLe as bs

/-- The bytes of a string, modelled as character code points. -/
def strBytes (s : String) : List Nat := s.data.map Char.toNat

/-- ASCII lower-casing of one code point (models `to_lowercase`, which the
sort key uses; names in scope are ASCII). -/
def lowerCode (n : Nat) : Nat := if 65 ≤ n ∧ n ≤ 90 then n + 32 else n

/-- The case-folded sort key of a name:
`node.name.clone().to_lowercase()` compared byte-wise. -/
def nameKey (s : String) : List Nat := (strBytes s).map lowerCode

/-- A content digest; 32 bytes in the code, here an unbounded byte list. -/
abbrev ContentHash := List Nat

/-- SHA-256, modelled as an injective digest with four leading padding
bytes (see the header comment). -/
def sha256 (input : List Nat) : List Nat :=
  0 :: 0 :: 0 :: 0 :: input.length :: input

/-- `NodeType` from `base.rs`. -/
inductive NodeType where
  | File : NodeType
  | Directory : NodeType
deriving DecidableEq, Repr

/-- `Node` from `base.rs`.  `updated_at` is kept as an opaque timestamp
(it is informational only and never used for diff decisions). -/
structure Node where
  node_type : NodeType
  name : String
  path : Path
  updated_at : Nat
  content_hash : ContentHash
  children : List Node

/-- `Node::is_file` from `base.rs`. -/
def Node.is_file (n : Node) : Bool :=
  match n.node_type with
  | NodeType.File => true
  | NodeType.Directory => false

/-- `Node::is_dir` from `base.rs`. -/
def Node.is_dir (n : Node) : Bool :=
  match n.node_type with
  | NodeType.File => false
  | NodeType.Directory => true

/-- `hash[0..4].fill(b)`: overwrite the first four bytes (or as many as
exist) of a digest with a tag byte. -/
def fillTag (b : Nat) (h : List Nat) : List Nat :=
  (h.take 4).map (fun _ => b) ++ h.drop 4

/-- `Node::node_hash` from `diff.rs`: the content hash with its first four
bytes overwritten by `'f'` (102) for files and `'d'` (100) for
directories. -/
def Node.node_hash (n : Node) : ContentHash :=
  if n.is_file then fillTag 102 n.content_hash else fillTag 100 n.content_hash

mutual

/-- Number of nodes of a subtree; fuel for the BFS traversal. -/
def Node.size : Node → Nat
  | Node.mk _ _ _ _ _ children => 1 + sizeNodes children

/-- Total number of nodes of a forest. -/
def sizeNodes : List Node → Nat
  | [] => 0
  | n :: rest => Node.size n + sizeNodes rest

end

/-- Fuelled worker for the BFS traversal of `NodeIterator` from
`base.rs`: pop the front, push the children of directories at the back.
One unit of fuel is spent per popped node, so any fuel of at least the
total node count yields the full traversal. -/
def bfsGo : Nat → List Node → List Node
  | 0, _ => []
  | _ + 1, [] => []
  | fuel + 1, n :: rest =>
    n :: bfsGo fuel (rest ++ if n.is_dir then n.children else [])

/-- The BFS traversal of a queue of nodes. -/
def bfsList (q : List Node) : List Node := bfsGo (sizeNodes q) q

/-- The BFS iteration `for node in tree` over a `Node`. -/
def Node.bfs (n : Node) : List Node := bfsList [n]

/-- `Task` from `diff.rs`. -/
inductive Task where
  | Move : Path → Path → Task
  | Upload : Path → Task
  | CreateDir : Path → Task
  | Delete : Path → Task
deriving DecidableEq, Repr

/-- Association-list lookup (models `HashMap::get`). -/
def alGet {κ ν : Type} [DecidableEq κ] (k : κ) (l : List (κ × ν)) : Option ν :=
  (l.find? (fun p => decide (p.1 = k))).map (fun p => p.2)

/-- Replace the value stored at an existing key. -/
def alSet {κ ν : Type} [DecidableEq κ] (k : κ) (v : ν) (l : List (κ × ν)) :
    List (κ × ν) :=
  l.map (fun p => if p.1 = k then (k, v) else p)

/-- `HashMap::insert`: replace the value if the key is present, otherwise
append the new binding (insertion order is kept). -/
def alInsert {κ ν : Type} [DecidableEq κ] (k : κ) (v : ν) (l : List (κ × ν)) :
    List (κ × ν) :=
  if l.any (fun p => decide (p.1 = k)) then alSet k v l else l ++ [(k, v)]

/-- `HashMap::remove`. -/
def alRemove {κ ν : Type} [DecidableEq κ] (k : κ) (l : List (κ × ν)) :
    List (κ × ν) :=
  l.filter (fun p => decide (p.1 ≠ k))

/-- One step of `build_node_hash_table`: push a node onto the bucket of its
`node_hash`, creating the bucket if needed. -/
def addToBucket (t : List (ContentHash × List Node)) (n : Node) :
    List (ContentHash × List Node) :=
  match alGet n.node_hash t with
  | some ns => alSet n.node_hash (ns ++ [n]) t
  | none => t ++ [(n.node_hash, [n])]

/-- `build_node_hash_table` from `diff.rs`: map from node hash to the list
of nodes (in BFS order) with that identity. -/
def build_node_hash_table (tree : Node) : List (ContentHash × List Node) :=
  tree.bfs.foldl addToBucket []

/-- `build_path_hash_table` from `diff.rs`: map from path to node. -/
def build_path_hash_table (tree : Node) : List (Path × Node) :=
  tree.bfs.foldl (fun t n => alInsert n.path n t) []

/-- Total number of nodes stored in a content table (proof measure). -/
def tableTotal (t : List (ContentHash × List Node)) : Nat :=
  (t.map (fun p => p.2.length)).sum

/-- State threaded through the first loop of `build_task_queue` (matching
destination nodes against the source content table). -/
structure P1State where
  table : List (ContentHash × List Node)
  to_move : List (Path × (Task × Bool))
  to_del : List (Path × (Task × Bool))

/-- The shared fallthrough of the first loop: the destination node's
content was not found in the source tree, so it is recorded for deletion
(files always, directories only when not the root). -/
def p1Delete (s : P1State) (dst_node : Node) : P1State :=
  if dst_node.is_file then
    { s with to_del :=
        alInsert dst_node.path (Task.Delete dst_node.path, true) s.to_del }
  else if dst_node.path ≠ [] then
    { s with to_del :=
        alInsert dst_node.path (Task.Delete dst_node.path, false) s.to_del }
  else s

/-- The `Vec::pop` fallback of the first loop: take the last candidate as
the pending move's target, or fall through to the delete branch when the
bucket is empty. -/
def p1Pop (s : P1State) (dst_node : Node) (src_nodes : List Node) : P1State :=
  match src_nodes.getLast? with
  | some cand =>
    { s with
        table := alSet dst_node.node_hash src_nodes.dropLast s.table,
        to_move := alInsert dst_node.path
          (Task.Move dst_node.path cand.path, dst_node.is_file) s.to_move }
  | none => p1Delete s dst_node

/-- The nonempty-bucket branch of the first loop: a candidate at the same
path is consumed silently, otherwise the last candidate is popped as a
pending move. -/
def p1Match (s : P1State) (dst_node : Node) (src_nodes : List Node) : P1State :=
  match List.findIdx? (fun n => decide (n.path = dst_node.path)) src_nodes with
  | some idx =>
    { s with table := alSet dst_node.node_hash (src_nodes.eraseIdx idx) s.table }
  | none => p1Pop s dst_node src_nodes

/-- One iteration of the first loop of `build_task_queue` over a
destination node: consume a same-path identity match silently, else
consume the last candidate (`Vec::pop`) as a pending move, else record a
pending delete. -/
def p1Step (s : P1State) (dst_node : Node) : P1State :=
  match alGet dst_node.node_hash s.table with
  | some src_nodes => p1Match s dst_node src_nodes
  | none => p1Delete s dst_node

/-- The whole first loop of `build_task_queue`. -/
def phase1 (src_tree dst_tree : Node) : P1State :=
  dst_tree.bfs.foldl p1Step
    { table := build_node_hash_table src_tree, to_move := [], to_del := [] }

/-- The temp file name `".crustasync-" + uuid`; `Uuid::new_v4` is modelled
by a counter. -/
def tempName (k : Nat) : String := ".crustasync-" ++ toString k

/-- `String::starts_with`, on the byte model of strings. -/
def strStartsWith (s base : String) : Bool :=
  List.isPrefixOf (strBytes base) (strBytes s)

/-- Whether a path avoids the reserved temp-name shape: its first
component (if any) does not start with `".crustasync-"`.  Every ordinary
destination path satisfies this; the generated temp paths never do. -/
def headNonReservedB (p : Path) : Bool :=
  match p with
  | [] => true
  | c :: _ => ! strStartsWith c (".crustasync-")

/-- State threaded through the second loop of `build_task_queue`. -/
structure P2State where
  to_move : List (Path × (Task × Bool))
  to_del : List (Path × (Task × Bool))
  queue_0 : List Task
  queue_1 : List Task
  queue_2 : List Task
  queue_4 : List Task
  ctr : Nat

/-- One entry of the rescue loop over `to_move`: a pending move whose key
is nested under the doomed directory is scheduled into Q0 with a fresh
temp destination, and its `from` is rewritten to that temp path; other
entries pass through unchanged. -/
def rmStep (path : Path)
    (acc : List (Path × (Task × Bool)) × List Task × Nat)
    (entry : Path × (Task × Bool)) :
    List (Path × (Task × Bool)) × List Task × Nat :=
  match acc, entry with
  | (done, q0, c), (k, (task, b)) =>
    if pathStartsWith k path then
      match task with
      | Task.Move fromP toP =>
        (done ++ [(k, (Task.Move [tempName c] toP, b))],
         q0 ++ [Task.Move fromP [tempName c]], c + 1)
      | _ => (done ++ [(k, (task, b))], q0, c)
    else (done ++ [(k, (task, b))], q0, c)

/-- The rescue loop over `to_move` (`to_move.iter_mut().for_each`): every
pending move whose key is nested under the doomed directory is first
scheduled into Q0 with a fresh temp destination, and its `from` is
rewritten to that temp path. -/
def rescueMoves (path : Path) (to_move : List (Path × (Task × Bool)))
    (queue_0 : List Task) (ctr : Nat) :
    List (Path × (Task × Bool)) × List Task × Nat :=
  to_move.foldl (rmStep path) ([], queue_0, ctr)

/-- Directory→file conversion in the second loop: rescue the pending moves
nested under the doomed directory, schedule its early delete, and clear
its pending-delete entry.  (The guard `del_task` is always a `Delete`.) -/
def p2FileConv (s : P2State) (new : Node) (del_task : Task) : P2State :=
  match del_task with
  | Task.Delete path =>
    let (tm, q0, c) := rescueMoves path s.to_move s.queue_0 s.ctr
    { s with
        to_move := tm, queue_0 := q0, ctr := c,
        queue_1 := s.queue_1 ++ [Task.Delete path],
        to_del := alRemove new.path s.to_del }
  | _ => s

/-- The pending-delete hit for a new source file: a destination file is
simply overwritten (drop the delete), a destination directory triggers the
conversion branch. -/
def p2FileHit (s : P2State) (new : Node) (db : Task × Bool) : P2State :=
  if db.2 then
    { s with to_del := alRemove new.path s.to_del }
  else p2FileConv s new db.1

/-- The pending-delete handling for a new source file. -/
def p2FileDel (s : P2State) (new : Node) : P2State :=
  match alGet new.path s.to_del with
  | some db => p2FileHit s new db
  | none => s

/-- Schedule `CreateDir` for a non-root new directory. -/
def p2DirCreate (s : P2State) (new : Node) : P2State :=
  if new.path ≠ [] then
    { s with queue_2 := s.queue_2 ++ [Task.CreateDir new.path] }
  else s

/-- The pending-delete hit for a new source directory: an existing
destination directory is kept as is (no create); an existing destination
file is deleted early (Q1) and the directory is created. -/
def p2DirHit (s : P2State) (new : Node) (db : Task × Bool) : P2State :=
  if ¬ db.2 then
    { s with to_del := alRemove new.path s.to_del }
  else
    p2DirCreate
      { s with
          to_del := alRemove new.path s.to_del,
          queue_1 := s.queue_1 ++ [Task.Delete new.path] } new

/-- The new-directory branch of the second loop. -/
def p2DirStep (s : P2State) (new : Node) : P2State :=
  match alGet new.path s.to_del with
  | some db => p2DirHit s new db
  | none => p2DirCreate s new

/-- One iteration of the second loop of `build_task_queue` over a leftover
source node (genuinely new content). -/
def p2Step (s : P2State) (new : Node) : P2State :=
  if new.is_file then
    let s1 := p2FileDel s new
    { s1 with queue_4 := s1.queue_4 ++ [Task.Upload new.path] }
  else p2DirStep s new

/-- The whole second loop: iterate over the leftover source candidates
(`src_content_table.values()` flattened in table order). -/
def phase2 (s1 : P1State) : P2State :=
  (s1.table.flatMap (fun p => p.2)).foldl p2Step
    { to_move := s1.to_move, to_del := s1.to_del,
      queue_0 := [], queue_1 := [], queue_2 := [], queue_4 := [], ctr := 0 }

/-- Invariant of the second loop (proof device): every pending-delete
entry stores the `Delete` task of its own key. -/
def delShape (s : P2State) : Prop :=
  ∀ e ∈ s.to_del, e.2.1 = Task.Delete e.1

/-- Invariant of the second loop (proof device): every pending-move entry
stores a `Move` task whose `from` is either the entry's own key (never
rescued) or a generated temp path (rescued). -/
def mvShape (s : P2State) : Prop :=
  ∀ e ∈ s.to_move, ∃ f t b, e.2 = (Task.Move f t, b) ∧
    (f = e.1 ∨ ∃ c, f = [tempName c])

/-- Invariant of the second loop (proof device): every Q0 task is a `Move`
to a single-component temp path whose `from` is either a pending-move key
or an earlier temp path. -/
def q0Shape (keys0 : List Path) (s : P2State) : Prop :=
  ∀ t ∈ s.queue_0, ∃ f c, t = Task.Move f [tempName c] ∧
    (f ∈ keys0 ∨ ∃ c2, f = [tempName c2])

/-- `dedup_move_tasks` from `diff.rs`: drop a `Move` whose `from` is a
strict descendant of any `from` in the list, or whose `to` is a strict
descendant of any `to` in the list. -/
def dedup_move_tasks (tasks : List Task) : List Task :=
  let from_paths := tasks.filterMap (fun t =>
    match t with
    | Task.Move f _ => some f
    | _ => none)
  let to_paths := tasks.filterMap (fun t =>
    match t with
    | Task.Move _ toP => some toP
    | _ => none)
  tasks.filter (fun t =>
    match t with
    | Task.Move f toP =>
      ¬ (from_paths.any (fun pb => pathStartsWith f pb && decide (f ≠ pb)) ||
         to_paths.any (fun pb => pathStartsWith toP pb && decide (toP ≠ pb)))
    | _ => true)

/-- `dedup_del_tasks` from `diff.rs`: drop a `Delete` whose path is a
strict descendant of any `Delete` path in the list. -/
def dedup_del_tasks (tasks : List Task) : List Task :=
  let paths := tasks.filterMap (fun t =>
    match t with
    | Task.Delete p => some p
    | _ => none)
  tasks.filter (fun t =>
    match t with
    | Task.Delete p =>
      ¬ (paths.any (fun pb => pathStartsWith p pb && decide (p ≠ pb)))
    | _ => true)

/-- Stable insertion of an element into a sorted list: the new element
goes before the first element it compares `le` to, so equal keys keep
their original relative order. -/
def insertSorted {α : Type} (le : α → α → Bool) (x : α) : List α → List α
  | [] => [x]
  | y :: ys => if le x y then x :: y :: ys else y :: insertSorted le x ys

/-- A stable sort (insertion sort), modelling Rust's stable
`sort_by_key`. -/
def insertionSort {α : Type} (le : α → α → Bool) : List α → List α
  | [] => []
  | x :: xs => insertSorted le x (insertionSort le xs)

/-- The bytes of `path.to_str()`: components joined by `'/'` (code 47). -/
def pathStrBytes : Path → List Nat
  | [] => []
  | [x] => strBytes x
  | x :: rest => strBytes x ++ [47] ++ pathStrBytes rest

/-- The `sort_by_key` key for Q2 (`CreateDir` path string, `""`
otherwise). -/
def createDirKey (t : Task) : List Nat :=
  match t with
  | Task.CreateDir p => pathStrBytes p
  | _ => []

/-- The `sort_by_key` key for Q5 (`Delete` path string, `""` otherwise);
the queue is sorted by `Reverse` of this key. -/
def deleteKey (t : Task) : List Nat :=
  match t with
  | Task.Delete p => pathStrBytes p
  | _ => []

/-- Q0 of `build_task_queue`: the deduplicated rescue moves. -/
def q0Final (s2 : P2State) : List Task := dedup_move_tasks s2.queue_0

/-- Q1 of `build_task_queue`: the deduplicated early deletes. -/
def q1Final (s2 : P2State) : List Task := dedup_del_tasks s2.queue_1

/-- Q2 of `build_task_queue`: directory creations sorted ascending by path
string so parents come first. -/
def q2Final (s2 : P2State) : List Task :=
  insertionSort (fun a b => listNatLe (createDirKey a) (createDirKey b)) s2.queue_2

/-- Q3 of `build_task_queue`: the remaining pending moves, deduplicated. -/
def q3Final (s2 : P2State) : List Task :=
  dedup_move_tasks (s2.to_move.map (fun p => p.2.1))

/-- The pending deletes surviving into Q5: those whose path is neither
still present in the source tree nor deleted recursively by Q1. -/
def q5aOf (src_path_table : List (Path × Node)) (s2 : P2State) : List Task :=
  s2.to_del.filterMap (fun p =>
    match p.2.1 with
    | Task.Delete path =>
      let deleted_recursively_in_q1 := (q1Final s2).any (fun t =>
        match t with
        | Task.Delete q1p => pathStartsWith path q1p
        | _ => false)
      if ¬ (alGet path src_path_table).isSome && ¬ deleted_recursively_in_q1 then
        some (Task.Delete path)
      else none
    | _ => none)

/-- Q5 of `build_task_queue`: the surviving pending deletes, deduplicated
and sorted descending by path string so children come first. -/
def q5Final (src_path_table : List (Path × Node)) (s2 : P2State) : List Task :=
  insertionSort (fun a b => listNatLe (deleteKey b) (deleteKey a))
    (dedup_del_tasks (q5aOf src_path_table s2))

/-- `build_task_queue` from `diff.rs`: the six ordered batches turning the
destination tree into the source tree. -/
def build_task_queue (src_tree dst_tree : Node) : List (List Task) :=
  let src_path_table := build_path_hash_table src_tree
  let s2 := phase2 (phase1 src_tree dst_tree)
  [q0Final s2, q1Final s2, q2Final s2, q3Final s2, s2.queue_4,
   q5Final src_path_table s2]

/-- `CRUSTASYNC_CONFIG_FILE` from `base.rs`. -/
def CRUSTASYNC_CONFIG_FILE : String := ".crustasync"

/-- A backend directory listing, as consumed by `build_node`: file entries
carry their byte content, directory entries their child listing in backend
listing order. -/
inductive FsEntry where
  | file : String → List Nat → FsEntry
  | dir : String → List FsEntry → FsEntry

/-- The name of a listing entry. -/
def FsEntry.name : FsEntry → String
  | FsEntry.file n _ => n
  | FsEntry.dir n _ => n

/-- `children.sort_by_key(|node| node.name.clone().to_lowercase())` from
`build_node` (a stable sort, like Rust's `sort_by_key`). -/
def sortChildren (children : List Node) : List Node :=
  insertionSort (fun a b => listNatLe (nameKey a.name) (nameKey b.name)) children

/-- The byte stream hashed for a directory in `build_node`: for each child
in order, the child's (original-case) name bytes followed by its
`content_hash`. -/
def dirHashInput (children : List Node) : List Nat :=
  children.flatMap (fun c => strBytes c.name ++ c.content_hash)

mutual

/-- `build_node` from `local.rs` (the Google Drive `build_node` hashes
directories identically): build the `Node` for one backend entry.  Files
hash their content; directories build all children, exclude the snapshot
file `.crustasync` at the root, sort the children by lower-cased name,
store them sorted, and hash the concatenation of (name bytes, child hash)
over the sorted children.  `updated_at` is irrelevant to every claim and
is modelled as `0`. -/
def build_node : FsEntry → Path → Bool → Node
  | FsEntry.file name content, parent_path, is_root =>
    { node_type := NodeType.File, name := name,
      path := if is_root then [] else parent_path ++ [name],
      updated_at := 0, content_hash := sha256 content, children := [] }
  | FsEntry.dir name entries, parent_path, is_root =>
    let path : Path := if is_root then [] else parent_path ++ [name]
    let built := build_nodes entries path
    let listed := if is_root then
        built.filter (fun c => decide (c.name ≠ CRUSTASYNC_CONFIG_FILE))
      else built
    let children := sortChildren listed
    { node_type := NodeType.Directory, name := name, path := path,
      updated_at := 0, content_hash := sha256 (dirHashInput children),
      children := children }

/-- Build the nodes of a directory listing (each entry is a non-root child
of the directory at `path`). -/
def build_nodes : List FsEntry → Path → List Node
  | [], _ => []
  | e :: rest, path => build_node e path false :: build_nodes rest path

end

/-- `build_tree` from `local.rs`: build the root node (the root listing is
a directory; the code errors out otherwise, which well-formed inputs here
exclude by construction). -/
def build_tree (root : FsEntry) : Node := build_node root [] true

mutual

/-- All nodes of a subtree in DFS (pre-)order; an order-free view of the
BFS iterator (they enumerate the same multiset of nodes). -/
def allNodes : Node → List Node
  | Node.mk nt nm p u h children => Node.mk nt nm p u h children :: allNodesList children

/-- All nodes of a forest in DFS order. -/
def allNodesList : List Node → List Node
  | [] => []
  | c :: rest => allNodes c ++ allNodesList rest

end

mutual

/-- Structural well-formedness of a tree: files are childless, sibling
names are distinct, and every child's path extends its parent's path by
its own name.  Trees produced by `build_node` on sane listings satisfy
this. -/
def Node.wfB : Node → Bool
  | Node.mk nt nm p u h children =>
    (if (Node.mk nt nm p u h children).is_file then children.isEmpty else true) &&
    decide ((children.map (fun c => c.name)).Nodup) &&
    wfChildren p children

/-- Well-formedness of the children of a directory at path `pp`. -/
def wfChildren : Path → List Node → Bool
  | _, [] => true
  | pp, c :: rest =>
    decide (c.path = pp ++ [c.name]) && Node.wfB c && wfChildren pp rest

end

/-- A destination-store entry used when batches are conceptually applied:
a file with its content digest, or a directory.  (Directory digests are
not tracked; a directory's identity is determined by the files beneath
it.) -/
inductive FlatVal where
  | file : ContentHash → FlatVal
  | dir : FlatVal
deriving DecidableEq, Repr

/-- A flat view of a destination tree: one entry per node, keyed by path. -/
def flatten (t : Node) : List (Path × FlatVal) :=
  (allNodes t).map (fun n =>
    (n.path, if n.is_file then FlatVal.file n.content_hash else FlatVal.dir))

/-- Re-root a path from under `f` to under `t` (precondition: `f` is a
prefix). -/
def rerootPath (f t p : Path) : Path := t ++ p.drop f.length

/-- Modelled from the spec: the per-task effect of the executor on the
flat destination store (section 4.3 of the spec; the claims speak of
"conceptually applying" the batches).  `Move` renames `from` onto `to`
(replacing whatever was at `to`, as both backends do), `Upload` writes the
source file's content at the path creating missing parents, `CreateDir`
creates the directory chain, `Delete` removes the subtree. -/
def applyTask (src : Node) (st : List (Path × FlatVal)) : Task → List (Path × FlatVal)
  | Task.Move f t =>
    let moved := (st.filter (fun e => pathStartsWith e.1 f)).map
      (fun e => (rerootPath f t e.1, e.2))
    let rest := st.filter (fun e =>
      ¬ (pathStartsWith e.1 f || pathStartsWith e.1 t))
    rest ++ moved
  | Task.Upload p =>
    let withDirs := (List.range p.length).foldl
      (fun acc i =>
        let q := p.take i
        if acc.any (fun e => decide (e.1 = q)) then acc else acc ++ [(q, FlatVal.dir)])
      st
    let cleared := withDirs.filter (fun e => decide (e.1 ≠ p))
    match alGet p (build_path_hash_table src) with
    | some n => cleared ++ [(p, FlatVal.file n.content_hash)]
    | none => cleared
  | Task.CreateDir p =>
    (List.range (p.length + 1)).foldl
      (fun acc i =>
        let q := p.take i
        if acc.any (fun e => decide (e.1 = q)) then acc else acc ++ [(q, FlatVal.dir)])
      st
  | Task.Delete p => st.filter (fun e => ¬ pathStartsWith e.1 p)

/-- Modelled from the spec: whether a task only references paths that
exist in the store at the time its batch runs (`Move` reads its `from`,
`Delete` its path; `Upload` and `CreateDir` create rather than
reference). -/
def taskRefsValid (st : List (Path × FlatVal)) : Task → Bool
  | Task.Move f _ => st.any (fun e => decide (e.1 = f))
  | Task.Delete p => st.any (fun e => decide (e.1 = p))
  | _ => true

/-- Modelled from the spec: apply the batches in order, recording whether
every task referenced only paths existing when its batch started. -/
def applyBatches (src : Node) (st : List (Path × FlatVal))
    (queues : List (List Task)) : List (Path × FlatVal) × Bool :=
  queues.foldl
    (fun acc q =>
      let ok := q.all (taskRefsValid acc.1)
      (q.foldl (applyTask src) acc.1, acc.2 && ok))
    (st, true)

/-- One batch of the executor `process_tasks` from `diff.rs`,
instantiated over an abstract per-task effect `run` on a destination state
`σ`.  `try_join_all` is determinised by list order: tasks run in order,
the first failure's error is kept and the remaining tasks of the batch are
cancelled. -/
def batchStep {σ ε : Type} (run : Task → σ → Except ε σ) (acc : σ × Option ε)
    (t : Task) : σ × Option ε :=
  match acc.2 with
  | some _ => acc
  | none =>
    match run t acc.1 with
    | Except.ok s2 => (s2, none)
    | Except.error e => (acc.1, some e)

/-- One batch of the executor: fold `batchStep` over the batch. -/
def runBatchT {σ ε : Type} (run : Task → σ → Except ε σ) (batch : List Task)
    (s : σ) : σ × Option ε :=
  batch.foldl (batchStep run) (s, none)

/-- One queue step of `process_tasks`: skip once a batch has failed. -/
def queueStep {σ ε : Type} (run : Task → σ → Except ε σ) (acc : σ × Option ε)
    (q : List Task) : σ × Option ε :=
  match acc.2 with
  | some _ => acc
  | none => runBatchT run q acc.1

/-- `process_tasks` from `diff.rs`: run the batches in order; a failing
batch aborts the whole run (`try_join_all(futures).await?`), leaving the
state reached so far and returning the error. -/
def process_tasks {σ ε : Type} (run : Task → σ → Except ε σ)
    (queues : List (List Task)) (s : σ) : σ × Option ε :=
  queues.foldl (queueStep run) (s, none)

/-- The backend surface used by the snapshot cache of `base.rs`:
the outcomes of the raw snapshot read, UTF-8 decoding, deserialisation,
the full walk `build_tree`, and the snapshot write. -/
structure SnapshotFS (ε : Type) where
  read_raw : Except ε (List Nat)
  utf8_decode : List Nat → Except ε String
  deserialize : String → Except ε Node
  built : Except ε Node
  write_res : Node → Except ε Unit

/-- `read_tree_from_file` from `base.rs`: read the snapshot file, decode
it as UTF-8, deserialise the tree; any stage may fail. -/
def read_tree_from_file {ε : Type} (fs : SnapshotFS ε) : Except ε Node := do
  let content ← fs.read_raw
  let json_str ← fs.utf8_decode content
  let tree ← fs.deserialize json_str
  pure tree

/-- `sync_tree_to_file` from `base.rs`: full walk, persist, return the
tree.  The second component records the snapshots persisted. -/
def sync_tree_to_file {ε : Type} (fs : SnapshotFS ε) : Except ε Node × List Node :=
  match fs.built with
  | Except.error e => (Except.error e, [])
  | Except.ok tree =>
    match fs.write_res tree with
    | Except.error e => (Except.error e, [])
    | Except.ok _ => (Except.ok tree, [tree])

/-- `get_tree` from `base.rs`: force a rescan, or read the stored
snapshot, falling back to a rescan on any read failure. -/
def get_tree {ε : Type} (fs : SnapshotFS ε) (force_sync : Bool) :
    Except ε Node × List Node :=
  if force_sync then sync_tree_to_file fs
  else
    match read_tree_from_file fs with
    | Except.ok node => (Except.ok node, [])
    | Except.error _ => sync_tree_to_file fs

/-! Concrete fixtures used by witnesses and counterexamples. -/

/-- Source of the circular-rename scenario: files `a` (content `[0]`) and
`b` (content `[1]`). -/
def srcSwap : Node :=
  build_tree (FsEntry.dir ("") [FsEntry.file ("a") [0], FsEntry.file ("b") [1]])

/-- Destination of the circular-rename scenario: the same two file paths
with the two contents swapped. -/
def dstSwap : Node :=
  build_tree (FsEntry.dir ("") [FsEntry.file ("a") [1], FsEntry.file ("b") [0]])

/-- An empty source root. -/
def srcQ5 : Node := build_tree (FsEntry.dir ("") [])

/-- A destination with one stale file `x`. -/
def dstQ5 : Node := build_tree (FsEntry.dir ("") [FsEntry.file ("x") [5]])

/-- A small well-formed tree used by witnesses. -/
def treeWit : Node :=
  build_tree (FsEntry.dir ("") [FsEntry.dir ("old") [FsEntry.file ("a.txt") [1]]])

/-- Source of the subtree-relocation scenario: the subtree sits at `t`. -/
def srcMove : Node :=
  build_tree (FsEntry.dir ("")
    [FsEntry.dir ("t") [FsEntry.file ("x") [3]], FsEntry.file ("m") [9]])

/-- Destination of the subtree-relocation scenario: the identical subtree
sits at `d`. -/
def dstMove : Node :=
  build_tree (FsEntry.dir ("")
    [FsEntry.dir ("d") [FsEntry.file ("x") [3]], FsEntry.file ("m") [9]])

/-- Source of the orphaned-rescue scenario: `d` becomes a file, the
subtree content of `z/a` sits at `s`. -/
def srcOrphan : Node :=
  build_tree (FsEntry.dir ("")
    [FsEntry.file ("d") [9], FsEntry.dir ("s") [FsEntry.file ("x") [3]]])

/-- Destination of the orphaned-rescue scenario: directory `d` holds `w`
and `x` (so `x` gets a pending move into `s`), and `z/a` is the subtree
matching `s`. -/
def dstOrphan : Node :=
  build_tree (FsEntry.dir ("")
    [FsEntry.dir ("d") [FsEntry.file ("w") [5], FsEntry.file ("x") [3]],
     FsEntry.dir ("z") [FsEntry.dir ("a") [FsEntry.file ("x") [3]]]])

/-- Source of the rescue-plus-interference scenario (see `C2`): `d` is
replaced by a file, `s` holds the `x` content, `y2` holds the rescued
file's content, `z` survives as an (empty) directory. -/
def srcC2 : Node :=
  build_tree (FsEntry.dir ("")
    [FsEntry.file ("d") [7], FsEntry.dir ("s") [FsEntry.file ("x") [3]],
     FsEntry.file ("y2") [4], FsEntry.dir ("z") []])

/-- Destination of the rescue-plus-interference scenario: `d` is a
directory holding `x0` (whose content must be rescued), `z/a` is a subtree
matching `s`, and `y` is a file that steals the `s/x` candidate. -/
def dstC2 : Node :=
  build_tree (FsEntry.dir ("")
    [FsEntry.dir ("d") [FsEntry.file ("x0") [4]],
     FsEntry.dir ("z") [FsEntry.dir ("a") [FsEntry.file ("x") [3]]],
     FsEntry.file ("y") [3]])

/-- Source of the minimal rescue scenario: directory `d` is replaced by a
file, and `y` holds the content of the file that lived at `d/x`. -/
def srcMini : Node :=
  build_tree (FsEntry.dir ("")
    [FsEntry.file ("d") [7], FsEntry.file ("y") [3]])

/-- Destination of the minimal rescue scenario: directory `d` holds the
file `x` whose pending move into `y` must be rescued. -/
def dstMini : Node :=
  build_tree (FsEntry.dir ("")
    [FsEntry.dir ("d") [FsEntry.file ("x") [3]]])

/-- Source of the two-sibling relocation scenario: all content lives in
the nested subtree `s/x/f`. -/
def srcCollapse : Node :=
  build_tree (FsEntry.dir ("")
    [FsEntry.dir ("s") [FsEntry.dir ("x") [FsEntry.file ("f") [3]]]])

/-- Destination of the two-sibling relocation scenario: subtree `a`
matches source `s` and sibling subtree `b` matches source `s/x`, so both
are relocated intact — yet deduplication erases every move out of `b`. -/
def dstCollapse : Node :=
  build_tree (FsEntry.dir ("")
    [FsEntry.dir ("a") [FsEntry.dir ("x") [FsEntry.file ("f") [3]]],
     FsEntry.dir ("b") [FsEntry.file ("f") [3]]])

/-- A concrete executor effect for witnesses: uploads succeed and count,
deletes fail with error `7`. -/
def runWit : Task → Nat → Except Nat Nat
  | Task.Delete _, _ => Except.error 7
  | _, s => Except.ok (s + 1)

/-- A concrete snapshot backend whose stored snapshot reads fine. -/
def fsReadOk : SnapshotFS Nat :=
  { read_raw := Except.ok [1], utf8_decode := fun _ => Except.ok ("t"),
    deserialize := fun _ => Except.ok treeWit, built := Except.ok srcQ5,
    write_res := fun _ => Except.ok () }

/-- A concrete snapshot backend whose stored snapshot is corrupt but whose
walk succeeds. -/
def fsReadBad : SnapshotFS Nat :=
  { read_raw := Except.ok [1], utf8_decode := fun _ => Except.error 3,
    deserialize := fun _ => Except.ok treeWit, built := Except.ok srcQ5,
    write_res := fun _ => Except.ok () }

/-! Helper lemmas. -/

theorem mem_insertSorted {α : Type} (le : α → α → Bool) (x a : α) :
    ∀ l : List α, a ∈ insertSorted le x l ↔ a = x ∨ a ∈ l := by
  intro l
  induction l with
  | nil => simp [insertSorted]
  | cons y ys ih =>
    simp only [insertSorted]
    split
    · simp [List.mem_cons]
    · simp only [List.mem_cons, ih]
      tauto

theorem mem_insertionSort {α : Type} (le : α → α → Bool) (a : α) :
    ∀ l : List α, a ∈ insertionSort le l ↔ a ∈ l := by
  intro l
  induction l with
  | nil => simp [insertionSort]
  | cons x xs ih =>
    simp only [insertionSort, mem_insertSorted, ih, List.mem_cons]

theorem mem_of_mem_dedup_del {t : Task} {l : List Task}
    (h : t ∈ dedup_del_tasks l) : t ∈ l := by
  unfold dedup_del_tasks at h
  exact List.mem_of_mem_filter h

theorem mem_of_mem_dedup_move {t : Task} {l : List Task}
    (h : t ∈ dedup_move_tasks l) : t ∈ l := by
  unfold dedup_move_tasks at h
  exact List.mem_of_mem_filter h

theorem Node.is_file_eq_false_of_is_dir {n : Node} (h : n.is_dir = true) :
    n.is_file = false := by
  unfold Node.is_dir at h
  unfold Node.is_file
  cases hnt : n.node_type with
  | File => rw [hnt] at h; cases h
  | Directory => rfl

theorem foldl_batchStep_err {σ ε : Type} (run : Task → σ → Except ε σ)
    (b : List Task) (s : σ) (e : ε) :
    b.foldl (batchStep run) (s, some e) = (s, some e) := by
  induction b with
  | nil => rfl
  | cons t rest ih => simpa [List.foldl_cons, batchStep] using ih

theorem foldl_queueStep_err {σ ε : Type} (run : Task → σ → Except ε σ)
    (qs : List (List Task)) (s : σ) (e : ε) :
    qs.foldl (queueStep run) (s, some e) = (s, some e) := by
  induction qs with
  | nil => rfl
  | cons q rest ih => simpa [List.foldl_cons, queueStep] using ih

/-! Claim theorems. -/

/-- C1: the claim states that applying the six batches to the destination
leaves, at every source path, a node whose identity matches the source
node's.  The code itself admits the unhandled case (`// TODO handle
circular rename`): when two file paths swap contents, `build_task_queue`
emits two clobbering renames in the same batch (Q3), the first of which
destroys the second's content; the source path `b` ends with no node at
all, even though the source holds a file there, and no upload
compensates. -/
theorem C1_circular_rename_loses_data :
    build_task_queue srcSwap dstSwap =
      [[], [], [],
       [Task.Move (["a"]) (["b"]), Task.Move (["b"]) (["a"])], [], []] ∧
    (applyBatches srcSwap (flatten dstSwap)
        (build_task_queue srcSwap dstSwap)).1.any
      (fun e => decide (e.1 = ["b"])) = false ∧
    (allNodes srcSwap).any (fun n => decide (n.path = ["b"]) && n.is_file) = true := by
  decide

/-- C3 counterexample: the claim says an empty directory's `content_hash`
never equals an empty file's.  In the code neither a directory seed nor a
lower-cased name enters the directory digest: an empty directory hashes
the empty byte stream, exactly like an empty file, so the two
`content_hash`es are equal (the code separates the two kinds only later,
in `node_hash`). -/
theorem C3_empty_dir_hash_counterexample :
    (build_node (FsEntry.dir ("d") []) [] false).content_hash =
    (build_node (FsEntry.file ("e") []) [] false).content_hash := by
  decide

/-- C3 amended: a directory's `content_hash` is the digest of the
(original-case child name, child hash) sequence over children sorted by
lower-cased name, with no directory seed, so an empty directory's
`content_hash` equals an empty file's; the file/directory distinction is
applied only by `node_hash`, which overwrites the first four digest bytes
with a type tag, so the matching identities of a file and a directory
always differ; and the child name enters the digest in its original case
(case-renaming a child changes the hash). -/
theorem C3_directory_hash_amended :
    (build_node (FsEntry.dir ("d") []) [] false).content_hash =
      (build_node (FsEntry.file ("e") []) [] false).content_hash ∧
    (∀ nf nd : Node, nf.is_file = true → nd.is_dir = true →
      (∃ bf, nf.content_hash = sha256 bf) → (∃ bd, nd.content_hash = sha256 bd) →
      nf.node_hash ≠ nd.node_hash) ∧
    (build_node (FsEntry.dir ("d") [FsEntry.file ("A") [1]]) [] false).content_hash ≠
      (build_node (FsEntry.dir ("d") [FsEntry.file ("a") [1]]) [] false).content_hash := by
  refine ⟨by decide, ?_, by decide⟩
  rintro nf nd hf hd ⟨bf, hbf⟩ ⟨bd, hbd⟩ h
  rw [Node.node_hash, Node.node_hash, hf, Node.is_file_eq_false_of_is_dir hd] at h
  simp [hbf, hbd, fillTag, sha256] at h

/-- Witness for C3: the node identities of a concrete file and a concrete
empty directory differ even though their content hashes coincide. -/
theorem C3_directory_hash_amended_witness :
    (build_node (FsEntry.file ("e") [2]) [] false).node_hash ≠
    (build_node (FsEntry.dir ("d") []) [] false).node_hash :=
  C3_directory_hash_amended.2.1 _ _ (by decide) (by decide)
    ⟨[2], by decide⟩ ⟨[], by decide⟩

/-- C7: every `Delete` in the final batch Q5 names a path that is absent
from the source path table and is not a descendant (nor equal) of a path
deleted in Q1: the Q5 filter checks exactly these two conditions, and the
subsequent deduplication and sort only remove or permute tasks. -/
theorem C7_q5_safety (src_tree dst_tree : Node) (p : Path)
    (hp : Task.Delete p ∈ (build_task_queue src_tree dst_tree).getD 5 []) :
    alGet p (build_path_hash_table src_tree) = none ∧
    ∀ q, Task.Delete q ∈ (build_task_queue src_tree dst_tree).getD 1 [] →
      pathStartsWith p q = false := by
  have hq5 : (build_task_queue src_tree dst_tree).getD 5 [] =
      q5Final (build_path_hash_table src_tree)
        (phase2 (phase1 src_tree dst_tree)) := rfl
  have hq1 : (build_task_queue src_tree dst_tree).getD 1 [] =
      q1Final (phase2 (phase1 src_tree dst_tree)) := rfl
  rw [hq5] at hp
  rw [q5Final] at hp
  have hp2 := mem_of_mem_dedup_del ((mem_insertionSort _ _ _).mp hp)
  rw [q5aOf] at hp2
  obtain ⟨entry, hmem, heq⟩ := List.mem_filterMap.mp hp2
  rcases hcase : entry.2.1 with ⟨f, t2⟩ | ⟨up⟩ | ⟨cd⟩ | ⟨path⟩
  · rw [hcase] at heq; simp at heq
  · rw [hcase] at heq; simp at heq
  · rw [hcase] at heq; simp at heq
  · rw [hcase] at heq
    simp only at heq
    split at heq
    · rename_i hcond
      have hpp : path = p := by
        injection heq with h1
        injection h1
      subst hpp
      simp only [Bool.and_eq_true, decide_eq_true_eq] at hcond
      constructor
      · rcases hget : alGet path (build_path_hash_table src_tree) with _ | v
        · rfl
        · exfalso
          have := hcond.1
          rw [hget] at this
          simp at this
      · intro q hq
        rw [hq1] at hq
        have hany := hcond.2
        rcases hstart : pathStartsWith path q with _ | _
        · rfl
        · exfalso
          apply hany
          rw [List.any_eq_true]
          exact ⟨Task.Delete q, hq, by simp [hstart]⟩
    · cases heq

/-- Witness for C7 at a concrete pair of trees where Q5 deletes the stale
file `x`. -/
theorem C7_q5_safety_witness :
    alGet (["x"]) (build_path_hash_table srcQ5) = none ∧
    ∀ q, Task.Delete q ∈ (build_task_queue srcQ5 dstQ5).getD 1 [] →
      pathStartsWith (["x"]) q = false :=
  C7_q5_safety srcQ5 dstQ5 (["x"]) (by decide)

/-- C8: `get_tree` performs the full walk-and-persist (`sync_tree_to_file`)
when forced or when the stored snapshot fails to read or parse for any
reason, returning the freshly built tree only after persisting it; when
the snapshot reads fine it is returned as is, independently of the
backend walk and of the snapshot writer (the backend is not touched); and
a read failure itself is never propagated — the fallback's outcome is the
rescan's. -/
theorem C8_get_tree_snapshot_cache {ε : Type} (fs : SnapshotFS ε) :
    get_tree fs true = sync_tree_to_file fs ∧
    (∀ n, read_tree_from_file fs = Except.ok n →
      ∀ b2 w2, get_tree { fs with built := b2, write_res := w2 } false =
        (Except.ok n, [])) ∧
    (∀ e, read_tree_from_file fs = Except.error e →
      get_tree fs false = sync_tree_to_file fs) ∧
    (∀ t, (sync_tree_to_file fs).1 = Except.ok t →
      fs.built = Except.ok t ∧ (sync_tree_to_file fs).2 = [t]) := by
  refine ⟨rfl, ?_, ?_, ?_⟩
  · intro n h b2 w2
    have h2 : read_tree_from_file { fs with built := b2, write_res := w2 } =
        Except.ok n := h
    simp [get_tree, h2]
  · intro e h
    simp [get_tree, h]
  · intro t h
    rcases hb : fs.built with eb | tree
    · simp [sync_tree_to_file, hb] at h
    · rcases hw : fs.write_res tree with ew | u
      · simp [sync_tree_to_file, hb, hw] at h
      · simp [sync_tree_to_file, hb, hw] at h
        subst h
        exact ⟨rfl, by simp [sync_tree_to_file, hb, hw]⟩

/-- Witness for C8: a readable snapshot is returned untouched; a corrupt
snapshot falls back to the rescan, both with and without forcing. -/
theorem C8_get_tree_snapshot_cache_witness :
    get_tree fsReadOk false = (Except.ok treeWit, []) ∧
    get_tree fsReadBad false = sync_tree_to_file fsReadBad ∧
    get_tree fsReadBad true = sync_tree_to_file fsReadBad := by
  refine ⟨?_, (C8_get_tree_snapshot_cache fsReadBad).2.2.1 3 rfl,
    (C8_get_tree_snapshot_cache fsReadBad).1⟩
  exact (C8_get_tree_snapshot_cache fsReadOk).2.1 treeWit rfl
    fsReadOk.built fsReadOk.write_res

/-- C9: if every batch before batch `i` succeeds and a task of batch `i`
fails, `process_tasks` returns that task's error; the batches after `i`
are never started (the result does not depend on them), and the effects of
the earlier batches and of the failing batch's completed prefix are kept
as they are — no compensating operation is issued. -/
theorem C9_process_tasks_abort {σ ε : Type} (run : Task → σ → Except ε σ)
    (pre : List (List Task)) (bpre bpost : List Task) (rest : List (List Task))
    (t : Task) (s0 si sm : σ) (e : ε)
    (h1 : process_tasks run pre s0 = (si, none))
    (h2 : runBatchT run bpre si = (sm, none))
    (h3 : run t sm = Except.error e) :
    process_tasks run (pre ++ (bpre ++ t :: bpost) :: rest) s0 = (sm, some e) := by
  unfold process_tasks at h1 ⊢
  rw [List.foldl_append, h1, List.foldl_cons]
  have hbatch : queueStep run (si, none) (bpre ++ t :: bpost) = (sm, some e) := by
    show runBatchT run (bpre ++ t :: bpost) si = (sm, some e)
    unfold runBatchT at h2 ⊢
    rw [List.foldl_append, h2, List.foldl_cons]
    have hstep : batchStep run (sm, none) t = (sm, some e) := by
      simp [batchStep, h3]
    rw [hstep, foldl_batchStep_err]
  rw [hbatch, foldl_queueStep_err]

/-- Witness for C9: with an effect that counts successful tasks and fails
on deletes, the run stops at the failing delete with its error `7`, the
state reached by the two earlier tasks, and the later batch untouched. -/
theorem C9_process_tasks_abort_witness :
    process_tasks runWit
      ([[Task.Upload (["u"])]] ++
        ([Task.Upload (["v"])] ++ Task.Delete (["w"]) :: [Task.Upload (["x"])]) ::
        [[Task.Upload (["y"])]]) 0 = (2, some 7) :=
  C9_process_tasks_abort runWit [[Task.Upload (["u"])]] [Task.Upload (["v"])]
    [Task.Upload (["x"])] [[Task.Upload (["y"])]] (Task.Delete (["w"]))
    0 1 2 7 rfl rfl rfl

/-! Order lemmas for the stable sort. -/

theorem listNatLe_total : ∀ a b : List Nat, (listNatLe a b || listNatLe b a) = true := by
  intro a
  induction a with
  | nil => intro b; simp [listNatLe]
  | cons x xs ih =>
    intro b
    cases b with
    | nil => simp [listNatLe]
    | cons y ys =>
      simp only [listNatLe]
      rcases Nat.lt_trichotomy x y with h | h | h
      · simp [h]
      · simp [h, Nat.lt_irrefl, ih ys]
      · simp [h, Nat.lt_asymm h]

theorem listNatLe_trans :
    ∀ a b c : List Nat, listNatLe a b = true → listNatLe b c = true →
      listNatLe a c = true := by
  intro a
  induction a with
  | nil => intro b c _ _; simp [listNatLe]
  | cons x xs ih =>
    intro b c hab hbc
    cases b with
    | nil => simp [listNatLe] at hab
    | cons y ys =>
      cases c with
      | nil => simp [listNatLe] at hbc
      | cons z zs =>
        simp only [listNatLe] at hab hbc ⊢
        rcases Nat.lt_trichotomy x y with h1 | h1 | h1
        · rcases Nat.lt_trichotomy y z with h2 | h2 | h2
          · simp [Nat.lt_trans h1 h2]
          · subst h2; simp [h1]
          · simp [h2, Nat.lt_asymm h2] at hbc
        · subst h1
          rcases Nat.lt_trichotomy x z with h2 | h2 | h2
          · simp [h2]
          · subst h2
            simp [Nat.lt_irrefl] at hab hbc ⊢
            exact ih ys zs hab hbc
          · simp [h2, Nat.lt_asymm h2] at hbc
        · simp [h1, Nat.lt_asymm h1] at hab

theorem listNatLe_antisymm :
    ∀ a b : List Nat, listNatLe a b = true → listNatLe b a = true → a = b := by
  intro a
  induction a with
  | nil =>
    intro b _ hba
    cases b with
    | nil => rfl
    | cons y ys => simp [listNatLe] at hba
  | cons x xs ih =>
    intro b hab hba
    cases b with
    | nil => simp [listNatLe] at hab
    | cons y ys =>
      simp only [listNatLe] at hab hba
      rcases Nat.lt_trichotomy x y with h | h | h
      · simp [h, Nat.lt_asymm h] at hba
      · subst h
        simp [Nat.lt_irrefl] at hab hba
        rw [ih ys hab hba]
      · simp [h, Nat.lt_asymm h] at hab

theorem pairwise_insertSorted {α : Type} (le : α → α → Bool)
    (htot : ∀ a b, (le a b || le b a) = true)
    (htrans : ∀ a b c, le a b = true → le b c = true → le a c = true)
    (x : α) :
    ∀ l : List α, l.Pairwise (fun a b => le a b = true) →
      (insertSorted le x l).Pairwise (fun a b => le a b = true) := by
  intro l
  induction l with
  | nil => intro _; simp [insertSorted]
  | cons y ys ih =>
    intro h
    have hy := (List.pairwise_cons.mp h).1
    have hys := (List.pairwise_cons.mp h).2
    simp only [insertSorted]
    split
    · rename_i hxy
      refine List.pairwise_cons.mpr ⟨?_, h⟩
      intro z hz
      rcases List.mem_cons.mp hz with hz | hz
      · rw [hz]; exact hxy
      · exact htrans x y z hxy (hy z hz)
    · rename_i hxy
      have hyx : le y x = true := by
        have := htot x y
        rcases Bool.or_eq_true_iff.mp this with h1 | h1
        · exact absurd h1 hxy
        · exact h1
      refine List.pairwise_cons.mpr ⟨?_, ih hys⟩
      intro z hz
      rcases (mem_insertSorted le x z ys).mp hz with hz | hz
      · rw [hz]; exact hyx
      · exact hy z hz

theorem pairwise_insertionSort {α : Type} (le : α → α → Bool)
    (htot : ∀ a b, (le a b || le b a) = true)
    (htrans : ∀ a b c, le a b = true → le b c = true → le a c = true) :
    ∀ l : List α, (insertionSort le l).Pairwise (fun a b => le a b = true) := by
  intro l
  induction l with
  | nil => simp [insertionSort]
  | cons x xs ih =>
    simp only [insertionSort]
    exact pairwise_insertSorted le htot htrans x _ ih

theorem perm_insertSorted {α : Type} (le : α → α → Bool) (x : α) :
    ∀ l : List α, (insertSorted le x l).Perm (x :: l) := by
  intro l
  induction l with
  | nil => simp [insertSorted]
  | cons y ys ih =>
    simp only [insertSorted]
    split
    · exact List.Perm.refl _
    · exact (ih.cons y).trans (List.Perm.swap x y ys)

theorem perm_insertionSort {α : Type} (le : α → α → Bool) :
    ∀ l : List α, (insertionSort le l).Perm l := by
  intro l
  induction l with
  | nil => exact List.Perm.refl _
  | cons x xs ih =>
    simp only [insertionSort]
    exact (perm_insertSorted le x _).trans (ih.cons x)

theorem eq_of_perm_of_sortedB {α : Type} (le : α → α → Bool) :
    ∀ l1 l2 : List α, l1.Perm l2 →
      l1.Pairwise (fun a b => le a b = true) →
      l2.Pairwise (fun a b => le a b = true) →
      (∀ a ∈ l1, ∀ b ∈ l1, le a b = true → le b a = true → a = b) →
      l1 = l2 := by
  intro l1
  induction l1 with
  | nil =>
    intro l2 hp _ _ _
    exact (List.Perm.eq_nil hp.symm).symm
  | cons a t1 ih =>
    intro l2 hp hs1 hs2 hanti
    cases l2 with
    | nil => exact absurd (List.Perm.eq_nil hp) (by simp)
    | cons b t2 =>
      by_cases hab : a = b
      · subst hab
        have ht : t1.Perm t2 := hp.cons_inv
        have := ih t2 ht (List.pairwise_cons.mp hs1).2 (List.pairwise_cons.mp hs2).2
          (fun x hx y hy => hanti x (List.mem_cons_of_mem a hx)
            y (List.mem_cons_of_mem a hy))
        rw [this]
      · exfalso
        have ha2 : a ∈ b :: t2 := hp.subset (List.mem_cons_self a t1)
        have hb1 : b ∈ a :: t1 := hp.symm.subset (List.mem_cons_self b t2)
        have hbt1 : b ∈ t1 := by
          rcases List.mem_cons.mp hb1 with h | h
          · exact absurd h.symm hab
          · exact h
        have hat2 : a ∈ t2 := by
          rcases List.mem_cons.mp ha2 with h | h
          · exact absurd h hab
          · exact h
        have hab1 : le a b = true := (List.pairwise_cons.mp hs1).1 b hbt1
        have hba1 : le b a = true := (List.pairwise_cons.mp hs2).1 a hat2
        exact hab (hanti a (List.mem_cons_self a t1) b hb1 hab1 hba1)

/-- Two permutations of the same elements with pairwise-distinct sort keys
sort to the same list. -/
theorem insertionSort_eq_of_perm {α : Type} (key : α → List Nat)
    (l1 l2 : List α) (hperm : l1.Perm l2)
    (hkeys : (l1.map key).Nodup) :
    insertionSort (fun a b => listNatLe (key a) (key b)) l1 =
    insertionSort (fun a b => listNatLe (key a) (key b)) l2 := by
  have htot : ∀ a b : α, (listNatLe (key a) (key b) || listNatLe (key b) (key a)) = true :=
    fun a b => listNatLe_total (key a) (key b)
  have htrans : ∀ a b c : α, listNatLe (key a) (key b) = true →
      listNatLe (key b) (key c) = true → listNatLe (key a) (key c) = true :=
    fun a b c => listNatLe_trans (key a) (key b) (key c)
  have hinj := List.inj_on_of_nodup_map hkeys
  apply eq_of_perm_of_sortedB
  · exact (perm_insertionSort _ l1).trans (hperm.trans (perm_insertionSort _ l2).symm)
  · exact pairwise_insertionSort _ htot htrans l1
  · exact pairwise_insertionSort _ htot htrans l2
  · intro a ha b hb h1 h2
    have ha1 : a ∈ l1 := (perm_insertionSort _ l1).subset ha
    have hb1 : b ∈ l1 := (perm_insertionSort _ l1).subset hb
    exact hinj ha1 hb1 (listNatLe_antisymm _ _ h1 h2)

/-- `build_nodes` is the map of `build_node` over the listing. -/
theorem build_nodes_eq_map : ∀ (l : List FsEntry) (path : Path),
    build_nodes l path = l.map (fun e => build_node e path false) := by
  intro l path
  induction l with
  | nil => rfl
  | cons e rest ih => simp [build_nodes, ih]

/-- `build_node` gives a node the listing entry's name. -/
theorem build_node_name (e : FsEntry) (path : Path) (is_root : Bool) :
    (build_node e path is_root).name = e.name := by
  cases e <;> rfl

/-- C4 counterexample: with two sibling names that collide after
lower-casing (`A` and `a`), the stable sort preserves the listing order
among the tied names, and the two listing orders hash differently — the
claim's unconditional listing-order independence fails. -/
theorem C4_case_collision_counterexample :
    (build_node (FsEntry.dir ("d")
        [FsEntry.file ("A") [0], FsEntry.file ("a") [1]]) [] false).content_hash ≠
    (build_node (FsEntry.dir ("d")
        [FsEntry.file ("a") [1], FsEntry.file ("A") [0]]) [] false).content_hash := by
  decide

/-- C4 amended: shuffling the listing order of a directory's children
never changes the built node (in particular its content hash), provided no
two children share the same lower-cased name; with a lower-case collision
the stable sort keeps listing order among the tied names and the hash can
change. -/
theorem C4_hash_listing_order_independent (name : String)
    (entries entries2 : List FsEntry) (parent : Path) (is_root : Bool)
    (hperm : entries.Perm entries2)
    (hkeys : (entries.map (fun e => nameKey e.name)).Nodup) :
    build_node (FsEntry.dir name entries) parent is_root =
    build_node (FsEntry.dir name entries2) parent is_root := by
  simp only [build_node]
  have hb : ∀ l : List FsEntry,
      build_nodes l (if is_root then [] else parent ++ [name]) =
        l.map (fun e => build_node e (if is_root then [] else parent ++ [name]) false) :=
    fun l => build_nodes_eq_map l _
  rw [hb entries, hb entries2]
  set path := if is_root then [] else parent ++ [name] with hpath
  have hmapperm : (entries.map (fun e => build_node e path false)).Perm
      (entries2.map (fun e => build_node e path false)) := hperm.map _
  have hlisted :
      (if is_root then
        (entries.map (fun e => build_node e path false)).filter
          (fun c => decide (c.name ≠ CRUSTASYNC_CONFIG_FILE))
      else entries.map (fun e => build_node e path false)).Perm
      (if is_root then
        (entries2.map (fun e => build_node e path false)).filter
          (fun c => decide (c.name ≠ CRUSTASYNC_CONFIG_FILE))
      else entries2.map (fun e => build_node e path false)) := by
    cases is_root
    · simpa using hmapperm
    · simpa using hmapperm.filter _
  have hkeysl : ((entries.map (fun e => build_node e path false)).map
      (fun c => nameKey c.name)).Nodup := by
    rw [List.map_map]
    have : (fun c : Node => nameKey c.name) ∘ (fun e => build_node e path false) =
        fun e => nameKey e.name := by
      funext e
      simp [build_node_name]
    rw [this]
    exact hkeys
  have hkeyslisted :
      ((if is_root then
        (entries.map (fun e => build_node e path false)).filter
          (fun c => decide (c.name ≠ CRUSTASYNC_CONFIG_FILE))
      else entries.map (fun e => build_node e path false)).map
        (fun c => nameKey c.name)).Nodup := by
    cases is_root
    · simpa using hkeysl
    · simp only [if_true]
      exact List.Nodup.sublist
        (List.Sublist.map _ (List.filter_sublist _)) hkeysl
  have hsort := insertionSort_eq_of_perm (fun c : Node => nameKey c.name)
    _ _ hlisted hkeyslisted
  simp only [sortChildren]
  rw [hsort]

/-- Witness for C4: two listings of the same two distinctly-named files
build identical directory nodes. -/
theorem C4_hash_listing_order_independent_witness :
    build_node (FsEntry.dir ("d")
      [FsEntry.file ("b") [1], FsEntry.file ("a") [2]]) [] false =
    build_node (FsEntry.dir ("d")
      [FsEntry.file ("a") [2], FsEntry.file ("b") [1]]) [] false :=
  C4_hash_listing_order_independent ("d") _ _ [] false
    (List.Perm.swap (FsEntry.file ("a") [2]) (FsEntry.file ("b") [1]) [])
    (by decide)

/-! Infrastructure for the idempotence proof (C6). -/

theorem Node.size_pos (n : Node) : 0 < n.size := by
  cases n with
  | mk nt nm p u h ch => simp [Node.size]

theorem sizeNodes_append : ∀ a b : List Node, sizeNodes (a ++ b) = sizeNodes a + sizeNodes b := by
  intro a b
  induction a with
  | nil => simp [sizeNodes]
  | cons n rest ih => simp [sizeNodes, ih]; omega

theorem sizeNodes_eq_zero {q : List Node} (h : sizeNodes q = 0) : q = [] := by
  cases q with
  | nil => rfl
  | cons n rest =>
    exfalso
    have := Node.size_pos n
    simp [sizeNodes] at h
    omega

theorem bfsGo_nil : ∀ fuel, bfsGo fuel [] = [] := by
  intro fuel
  cases fuel <;> rfl

theorem sizeNodes_step (n : Node) (rest : List Node) :
    sizeNodes (rest ++ if n.is_dir then n.children else []) + 1 ≤
      sizeNodes (n :: rest) := by
  rw [sizeNodes_append]
  have hsz : sizeNodes (n :: rest) = n.size + sizeNodes rest := rfl
  have hch : n.size = 1 + sizeNodes n.children := by
    cases n with
    | mk nt nm p u h ch => rfl
  by_cases hd : n.is_dir = true
  · simp only [hd, if_true]
    omega
  · simp only [hd]
    simp only [if_false, Bool.false_eq_true]
    simp [sizeNodes]
    omega

theorem bfsGo_fuel : ∀ f1 f2 q, sizeNodes q ≤ f1 → sizeNodes q ≤ f2 →
    bfsGo f1 q = bfsGo f2 q := by
  intro f1
  induction f1 with
  | zero =>
    intro f2 q h1 _
    have hq : q = [] := sizeNodes_eq_zero (Nat.le_zero.mp h1)
    subst hq
    rw [bfsGo_nil, bfsGo_nil]
  | succ f1 ih =>
    intro f2 q h1 h2
    cases q with
    | nil => rw [bfsGo_nil, bfsGo_nil]
    | cons n rest =>
      have hstep := sizeNodes_step n rest
      have hpos : 1 ≤ sizeNodes (n :: rest) := by
        have := Node.size_pos n
        simp [sizeNodes]
        omega
      cases f2 with
      | zero => omega
      | succ f2 =>
        simp only [bfsGo]
        congr 1
        exact ih f2 _ (by omega) (by omega)

theorem bfsList_cons (n : Node) (rest : List Node) :
    bfsList (n :: rest) =
      n :: bfsList (rest ++ if n.is_dir then n.children else []) := by
  unfold bfsList
  have hstep := sizeNodes_step n rest
  have hpos : 1 ≤ sizeNodes (n :: rest) := by
    have := Node.size_pos n
    simp [sizeNodes]
    omega
  rcases hk : sizeNodes (n :: rest) with _ | k
  · omega
  · simp only [bfsGo]
    congr 1
    exact bfsGo_fuel k
      (sizeNodes (rest ++ if n.is_dir then n.children else [])) _
      (by omega) (le_refl _)

theorem allNodesList_append : ∀ a b : List Node,
    allNodesList (a ++ b) = allNodesList a ++ allNodesList b := by
  intro a b
  induction a with
  | nil => simp [allNodesList]
  | cons n rest ih => simp [allNodesList, ih]

/-- A well-formed file is childless, so the BFS child push always pushes
exactly the node's children. -/
theorem wfB_push_eq_children {n : Node} (h : n.wfB = true) :
    (if n.is_dir then n.children else []) = n.children := by
  by_cases hd : n.is_dir = true
  · simp [hd]
  · have hf : n.is_file = true := by
      unfold Node.is_dir at hd
      unfold Node.is_file
      cases hnt : n.node_type with
      | File => rfl
      | Directory => rw [hnt] at hd; simp at hd
    cases n with
    | mk nt nm p u hh ch =>
      simp only [Node.wfB] at h
      rw [hf] at h
      simp only [if_true, Bool.and_eq_true] at h
      have : ch.isEmpty = true := h.1.1
      have hche : ch = [] := by
        cases ch with
        | nil => rfl
        | cons a t => simp [List.isEmpty] at this
      simp [hche]

theorem wfChildren_spec : ∀ (pp : Path) (l : List Node), wfChildren pp l = true →
    ∀ c ∈ l, c.path = pp ++ [c.name] ∧ c.wfB = true := by
  intro pp l
  induction l with
  | nil => intro _ c hc; cases hc
  | cons a rest ih =>
    intro h c hc
    simp only [wfChildren, Bool.and_eq_true, decide_eq_true_eq] at h
    rcases List.mem_cons.mp hc with hc | hc
    · subst hc
      exact ⟨h.1.1, h.1.2⟩
    · exact ih h.2 c hc

theorem wfB_children {n : Node} (h : n.wfB = true) :
    ∀ c ∈ n.children, c.path = n.path ++ [c.name] ∧ c.wfB = true := by
  cases n with
  | mk nt nm p u hh ch =>
    simp only [Node.wfB, Bool.and_eq_true] at h
    exact wfChildren_spec p ch h.2

theorem wfB_names_nodup {n : Node} (h : n.wfB = true) :
    (n.children.map (fun c => c.name)).Nodup := by
  cases n with
  | mk nt nm p u hh ch =>
    simp only [Node.wfB, Bool.and_eq_true, decide_eq_true_eq] at h
    exact h.1.2

/-- Under well-formedness, BFS enumerates the same nodes as the DFS view
`allNodesList`, up to order. -/
theorem bfsList_perm_allNodes : ∀ k q, sizeNodes q ≤ k →
    (∀ n ∈ q, n.wfB = true) → (bfsList q).Perm (allNodesList q) := by
  intro k
  induction k with
  | zero =>
    intro q h _
    have hq : q = [] := sizeNodes_eq_zero (Nat.le_zero.mp h)
    subst hq
    simp [bfsList, bfsGo_nil, allNodesList]
  | succ k ih =>
    intro q hsz hwf
    cases q with
    | nil => simp [bfsList, bfsGo_nil, allNodesList]
    | cons n rest =>
      rw [bfsList_cons]
      have hwfn := hwf n (List.mem_cons_self n rest)
      rw [wfB_push_eq_children hwfn]
      have hstep := sizeNodes_step n rest
      have hpush : sizeNodes (rest ++ n.children) ≤ k := by
        have := sizeNodes_step n rest
        rw [wfB_push_eq_children hwfn] at this
        omega
      have hwf2 : ∀ m ∈ rest ++ n.children, m.wfB = true := by
        intro m hm
        rcases List.mem_append.mp hm with hm | hm
        · exact hwf m (List.mem_cons_of_mem n hm)
        · exact (wfB_children hwfn m hm).2
      have hperm := ih (rest ++ n.children) hpush hwf2
      rw [allNodesList_append] at hperm
      have hgoal : allNodesList (n :: rest) =
          (allNodes n) ++ allNodesList rest := rfl
      rw [hgoal]
      have hn : allNodes n = n :: allNodesList n.children := by
        cases n with
        | mk nt nm p u hh ch => rfl
      rw [hn]
      have hcomm : (n :: (allNodesList rest ++ allNodesList n.children)).Perm
          (n :: (allNodesList n.children ++ allNodesList rest)) :=
        (@List.perm_append_comm _ (allNodesList rest) (allNodesList n.children)).cons n
      have hfin := (hperm.cons n).trans hcomm
      simpa using hfin

theorem allNodes_eq (n : Node) : allNodes n = n :: allNodesList n.children := by
  cases n with
  | mk nt nm p u hh ch => rfl

theorem size_le_sizeNodes_of_mem : ∀ {c : Node} {l : List Node}, c ∈ l →
    c.size ≤ sizeNodes l := by
  intro c l hc
  induction l with
  | nil => cases hc
  | cons a rest ih =>
    rcases List.mem_cons.mp hc with h | h
    · subst h; simp [sizeNodes]
    · have := ih h
      simp [sizeNodes]
      omega

theorem sizeNodes_children_lt (n : Node) : sizeNodes n.children < n.size := by
  cases n with
  | mk nt nm p u hh ch => simp [Node.size]

/-- In a well-formed tree, every node of a subtree extends the subtree
root's path, and all node paths are pairwise distinct. -/
theorem allNodes_paths_nodup : ∀ k (n : Node), n.size ≤ k → n.wfB = true →
    ((allNodes n).map (fun x => x.path)).Nodup ∧
    (∀ x ∈ allNodes n, ∃ r, x.path = n.path ++ r) := by
  intro k
  induction k with
  | zero =>
    intro n hsz
    have := Node.size_pos n
    omega
  | succ k ih =>
    intro n hsz hwf
    have hinner : ∀ l : List Node,
        (∀ c ∈ l, c.size ≤ k ∧ c.wfB = true ∧ c.path = n.path ++ [c.name]) →
        (l.map (fun c => c.name)).Nodup →
        ((allNodesList l).map (fun x => x.path)).Nodup ∧
        (∀ x ∈ allNodesList l, ∃ c ∈ l, ∃ r, x.path = n.path ++ [c.name] ++ r) := by
      intro l
      induction l with
      | nil =>
        intro _ _
        constructor
        · simp [allNodesList]
        · intro x hx; simp [allNodesList] at hx
      | cons c rest ihl =>
        intro hprops hnames
        have hc := hprops c (List.mem_cons_self c rest)
        have hrest : ∀ c2 ∈ rest, c2.size ≤ k ∧ c2.wfB = true ∧
            c2.path = n.path ++ [c2.name] :=
          fun c2 h2 => hprops c2 (List.mem_cons_of_mem c h2)
        have hnames2 : (rest.map (fun x => x.name)).Nodup :=
          (List.nodup_cons.mp hnames).2
        have hcname : c.name ∉ rest.map (fun x => x.name) :=
          (List.nodup_cons.mp hnames).1
        obtain ⟨ihc_nodup, ihc_ext⟩ := ih c hc.1 hc.2.1
        obtain ⟨ihr_nodup, ihr_ext⟩ := ihl hrest hnames2
        have hall : allNodesList (c :: rest) = allNodes c ++ allNodesList rest := rfl
        constructor
        · rw [hall, List.map_append]
          rw [List.nodup_append]
          refine ⟨ihc_nodup, ihr_nodup, ?_⟩
          intro pth hp1 hp2
          simp only [List.mem_map] at hp1 hp2
          obtain ⟨x1, hx1, hpx1⟩ := hp1
          obtain ⟨x2, hx2, hpx2⟩ := hp2
          obtain ⟨r1, hr1⟩ := ihc_ext x1 hx1
          obtain ⟨c2, hc2, r2, hr2⟩ := ihr_ext x2 hx2
          have heq : c.path ++ r1 = n.path ++ [c2.name] ++ r2 := by
            rw [← hr1, hpx1, ← hpx2, hr2]
          rw [hc.2.2] at heq
          have : c.name = c2.name := by
            rw [List.append_assoc, List.append_assoc] at heq
            have := List.append_cancel_left heq
            simp at this
            exact this.1
          exact hcname (List.mem_map.mpr ⟨c2, hc2, this.symm⟩)
        · intro x hx
          rw [hall] at hx
          rcases List.mem_append.mp hx with hx | hx
          · obtain ⟨r, hr⟩ := ihc_ext x hx
            exact ⟨c, List.mem_cons_self c rest, r, by rw [hr, hc.2.2]⟩
          · obtain ⟨c2, hc2, r, hr⟩ := ihr_ext x hx
            exact ⟨c2, List.mem_cons_of_mem c hc2, r, hr⟩
    have hchprops : ∀ c ∈ n.children,
        c.size ≤ k ∧ c.wfB = true ∧ c.path = n.path ++ [c.name] := by
      intro c hc
      have h1 := wfB_children hwf c hc
      have h2 : c.size ≤ sizeNodes n.children := size_le_sizeNodes_of_mem hc
      have h3 := sizeNodes_children_lt n
      exact ⟨by omega, h1.2, h1.1⟩
    obtain ⟨hch_nodup, hch_ext⟩ := hinner n.children hchprops (wfB_names_nodup hwf)
    rw [allNodes_eq]
    constructor
    · rw [List.map_cons, List.nodup_cons]
      refine ⟨?_, hch_nodup⟩
      intro hmem
      simp only [List.mem_map] at hmem
      obtain ⟨x, hx, hpx⟩ := hmem
      obtain ⟨c, _, r, hr⟩ := hch_ext x hx
      rw [hr] at hpx
      have : (n.path ++ [c.name] ++ r).length = n.path.length := by rw [hpx]
      simp at this
    · intro x hx
      rcases List.mem_cons.mp hx with hx | hx
      · exact ⟨[], by simp [hx]⟩
      · obtain ⟨c, _, r, hr⟩ := hch_ext x hx
        exact ⟨[c.name] ++ r, by rw [hr, List.append_assoc]⟩

/-- In a well-formed tree, the BFS node paths are pairwise distinct. -/
theorem bfs_paths_nodup (T : Node) (hwf : T.wfB = true) :
    ((T.bfs).map (fun x => x.path)).Nodup := by
  have hperm : (T.bfs).Perm (allNodes T) := by
    have h := bfsList_perm_allNodes (sizeNodes [T]) [T] (le_refl _)
      (by intro m hm; simp at hm; rw [hm]; exact hwf)
    have : allNodesList [T] = allNodes T := by simp [allNodesList]
    rw [← this]
    exact h
  have hnodup := (allNodes_paths_nodup T.size T (le_refl _) hwf).1
  exact (List.Perm.nodup_iff (hperm.map _)).mpr hnodup

/-! Association-list and content-table lemmas. -/

theorem alGet_eq_none_iff {κ ν : Type} [DecidableEq κ] (k : κ) :
    ∀ l : List (κ × ν), alGet k l = none ↔ ∀ e ∈ l, e.1 ≠ k := by
  intro l
  induction l with
  | nil => simp [alGet]
  | cons e rest ih =>
    simp only [alGet, List.find?_cons] at ih ⊢
    by_cases he : e.1 = k
    · simp [he]
    · simp [he, ih]

theorem alGet_append {κ ν : Type} [DecidableEq κ] (k : κ) :
    ∀ a b : List (κ × ν), alGet k (a ++ b) = ((alGet k a).or (alGet k b)) := by
  intro a b
  induction a with
  | nil => simp [alGet]
  | cons e rest ih =>
    simp only [alGet, List.cons_append, List.find?_cons] at ih ⊢
    by_cases he : e.1 = k
    · have hd : (decide (e.1 = k)) = true := by simp [he]
      simp only [hd]
      simp
    · have hd : (decide (e.1 = k)) = false := by simp [he]
      simp only [hd]
      exact ih

theorem alGet_alSet_self {κ ν : Type} [DecidableEq κ] (k : κ) (v : ν) :
    ∀ l : List (κ × ν), alGet k (alSet k v l) = (alGet k l).map (fun _ => v) := by
  intro l
  induction l with
  | nil => simp [alGet, alSet]
  | cons e rest ih =>
    simp only [alGet, alSet, List.map_cons] at ih ⊢
    by_cases he : e.1 = k
    · rw [if_pos he]
      simp only [List.find?_cons]
      have hd : (decide ((k, v).1 = k)) = true := by simp
      have hd2 : (decide (e.1 = k)) = true := by simp [he]
      simp only [hd, hd2]
      simp
    · rw [if_neg he]
      simp only [List.find?_cons]
      have hd : (decide (e.1 = k)) = false := by simp [he]
      simp only [hd]
      exact ih

theorem alGet_alSet_ne {κ ν : Type} [DecidableEq κ] {k k' : κ} (v : ν)
    (h : k' ≠ k) :
    ∀ l : List (κ × ν), alGet k' (alSet k v l) = alGet k' l := by
  intro l
  induction l with
  | nil => simp [alGet, alSet]
  | cons e rest ih =>
    simp only [alGet, alSet, List.map_cons, List.find?_cons] at ih ⊢
    by_cases he : e.1 = k
    · have h2 : ¬ (k = k') := Ne.symm h
      have h3 : ¬ (e.1 = k') := by rw [he]; exact Ne.symm h
      rw [if_pos he]
      have hd : (decide ((k, v).1 = k')) = false := by simp [h2]
      have hd2 : (decide (e.1 = k')) = false := by simp [h3]
      simp only [hd, hd2]
      exact ih
    · rw [if_neg he]
      by_cases he2 : e.1 = k'
      · have hd : (decide (e.1 = k')) = true := by simp [he2]
        simp only [hd]
      · have hd : (decide (e.1 = k')) = false := by simp [he2]
        simp only [hd]
        exact ih

theorem alSet_keys {κ ν : Type} [DecidableEq κ] (k : κ) (v : ν) :
    ∀ l : List (κ × ν),
      (alSet k v l).map (fun e => e.1) = l.map (fun e => e.1) := by
  intro l
  induction l with
  | nil => rfl
  | cons e rest ih =>
    simp only [alSet, List.map_cons] at ih ⊢
    by_cases he : e.1 = k
    · rw [if_pos he, ih]
      simp [he]
    · rw [if_neg he, ih]

theorem alSet_eq_of_no_key {κ ν : Type} [DecidableEq κ] {k : κ} (v : ν) :
    ∀ {l : List (κ × ν)}, (∀ e ∈ l, e.1 ≠ k) → alSet k v l = l := by
  intro l
  induction l with
  | nil => intro _; rfl
  | cons e rest ih =>
    intro h
    simp only [alSet, List.map_cons]
    rw [if_neg (h e (List.mem_cons_self e rest))]
    have := ih (fun e2 h2 => h e2 (List.mem_cons_of_mem e h2))
    simp only [alSet] at this
    rw [this]

theorem length_le_tableTotal_of_get {k : ContentHash} {ns : List Node} :
    ∀ {t : List (ContentHash × List Node)}, alGet k t = some ns →
      ns.length ≤ tableTotal t := by
  intro t
  induction t with
  | nil => intro h; simp [alGet] at h
  | cons e rest ih =>
    intro h
    simp only [alGet, List.find?_cons] at h ih
    by_cases he : e.1 = k
    · have hd : (decide (e.1 = k)) = true := by simp [he]
      simp only [hd] at h
      have h2 : some e.2 = some ns := h
      injection h2 with h1
      rw [← h1]
      simp [tableTotal]
    · have hd : (decide (e.1 = k)) = false := by simp [he]
      simp only [hd] at h
      have := ih h
      simp only [tableTotal, List.map_cons, List.sum_cons] at this ⊢
      omega

theorem tableTotal_alSet {k : ContentHash} {ns : List Node} (v : List Node) :
    ∀ {t : List (ContentHash × List Node)},
      (t.map (fun e => e.1)).Nodup →
      alGet k t = some ns →
      tableTotal (alSet k v t) = tableTotal t - ns.length + v.length := by
  intro t
  induction t with
  | nil => intro _ h; simp [alGet] at h
  | cons e rest ih =>
    intro hnodup hget
    simp only [alGet, List.find?_cons] at hget ih
    by_cases he : e.1 = k
    · have hd : (decide (e.1 = k)) = true := by simp [he]
      simp only [hd] at hget
      have hget2 : some e.2 = some ns := hget
      injection hget2 with h1
      have hrest : ∀ e2 ∈ rest, e2.1 ≠ k := by
        intro e2 h2 hk
        have hmem := (List.nodup_cons.mp hnodup).1
        apply hmem
        have : e2.1 = e.1 := by rw [hk, he]
        rw [show (fun e : ContentHash × List Node => e.1) e = e.1 from rfl]
        rw [← this]
        exact List.mem_map.mpr ⟨e2, h2, rfl⟩
      simp only [alSet, List.map_cons, if_pos he]
      have hre : List.map (fun p => if p.1 = k then (k, v) else p) rest = rest := by
        have := alSet_eq_of_no_key v hrest
        simp only [alSet] at this
        exact this
      rw [hre]
      simp only [tableTotal, List.map_cons, List.sum_cons]
      rw [← h1]
      omega
    · have hd : (decide (e.1 = k)) = false := by simp [he]
      simp only [hd] at hget
      have hnodup2 := (List.nodup_cons.mp hnodup).2
      have hrec := ih hnodup2 hget
      have hget3 : alGet k rest = some ns := hget
      have hlen := length_le_tableTotal_of_get hget3
      simp only [alSet, List.map_cons, if_neg he] at hrec ⊢
      simp only [tableTotal, List.map_cons, List.sum_cons] at hrec hlen ⊢
      omega

theorem addToBucket_keys_nodup {t : List (ContentHash × List Node)} (n : Node)
    (h : (t.map (fun e => e.1)).Nodup) :
    ((addToBucket t n).map (fun e => e.1)).Nodup := by
  unfold addToBucket
  rcases hg : alGet n.node_hash t with _ | ns
  · have hnot := (alGet_eq_none_iff n.node_hash t).mp hg
    rw [List.map_append]
    have hsing : List.map (fun e : ContentHash × List Node => e.1)
        [(n.node_hash, [n])] = [n.node_hash] := rfl
    rw [hsing]
    have hperm : ((t.map (fun e => e.1)) ++ [n.node_hash]).Perm
        (n.node_hash :: t.map (fun e => e.1)) := List.perm_append_comm
    rw [(List.Perm.nodup_iff hperm)]
    rw [List.nodup_cons]
    refine ⟨?_, h⟩
    intro hmem
    obtain ⟨e, he, hek⟩ := List.mem_map.mp hmem
    exact hnot e he hek
  · rw [alSet_keys]
    exact h

theorem tableTotal_addToBucket {t : List (ContentHash × List Node)} (n : Node)
    (h : (t.map (fun e => e.1)).Nodup) :
    tableTotal (addToBucket t n) = tableTotal t + 1 := by
  unfold addToBucket
  rcases hg : alGet n.node_hash t with _ | ns
  · simp [tableTotal]
  · rw [tableTotal_alSet (ns ++ [n]) h hg]
    have := length_le_tableTotal_of_get hg
    simp
    omega

theorem foldl_addToBucket_keys_nodup : ∀ (L : List Node)
    (t : List (ContentHash × List Node)), (t.map (fun e => e.1)).Nodup →
    ((L.foldl addToBucket t).map (fun e => e.1)).Nodup := by
  intro L
  induction L with
  | nil => intro t h; exact h
  | cons n rest ih =>
    intro t h
    exact ih (addToBucket t n) (addToBucket_keys_nodup n h)

theorem tableTotal_foldl_addToBucket : ∀ (L : List Node)
    (t : List (ContentHash × List Node)), (t.map (fun e => e.1)).Nodup →
    tableTotal (L.foldl addToBucket t) = tableTotal t + L.length := by
  intro L
  induction L with
  | nil => intro t _; rfl
  | cons n rest ih =>
    intro t h
    have h2 := addToBucket_keys_nodup n h
    have := ih (addToBucket t n) h2
    rw [List.foldl_cons, this, tableTotal_addToBucket n h]
    simp
    omega

/-- Characterisation of the content-table buckets, existing-bucket case:
folding the traversal appends, in order, the nodes with that identity. -/
theorem alGet_foldl_addToBucket_some : ∀ (L : List Node)
    (t : List (ContentHash × List Node)) (h : ContentHash) (ns : List Node),
    alGet h t = some ns →
    alGet h (L.foldl addToBucket t) =
      some (ns ++ L.filter (fun n => decide (n.node_hash = h))) := by
  intro L
  induction L with
  | nil => intro t h ns hg; simp [hg]
  | cons n rest ih =>
    intro t h ns hg
    rw [List.foldl_cons, List.filter_cons]
    by_cases heq : n.node_hash = h
    · have hd : (decide (n.node_hash = h)) = true := by simp [heq]
      rw [hd]
      simp only [if_true]
      rcases hg0 : alGet n.node_hash t with _ | ns0
      · rw [heq] at hg0
        rw [hg0] at hg
        cases hg
      · have hns : ns0 = ns := by
          rw [heq] at hg0
          rw [hg0] at hg
          injection hg
        subst hns
        have haddb : addToBucket t n = alSet n.node_hash (ns0 ++ [n]) t := by
          unfold addToBucket
          rw [hg0]
        rw [haddb]
        have hg2 : alGet h (alSet n.node_hash (ns0 ++ [n]) t) = some (ns0 ++ [n]) := by
          rw [← heq, alGet_alSet_self, hg0]
          rfl
        rw [ih _ h (ns0 ++ [n]) hg2]
        simp
    · have hd : (decide (n.node_hash = h)) = false := by simp [heq]
      rw [hd]
      simp only [Bool.false_eq_true, if_false]
      rcases hg0 : alGet n.node_hash t with _ | ns0
      · have haddb : addToBucket t n = t ++ [(n.node_hash, [n])] := by
          unfold addToBucket
          rw [hg0]
        rw [haddb]
        have hg2 : alGet h (t ++ [(n.node_hash, [n])]) = some ns := by
          rw [alGet_append, hg]
          rfl
        exact ih _ h ns hg2
      · have haddb : addToBucket t n = alSet n.node_hash (ns0 ++ [n]) t := by
          unfold addToBucket
          rw [hg0]
        rw [haddb]
        have hg2 : alGet h (alSet n.node_hash (ns0 ++ [n]) t) = some ns := by
          rw [alGet_alSet_ne (ns0 ++ [n]) (Ne.symm heq) t]
          exact hg
        exact ih _ h ns hg2

/-- Characterisation of the content-table buckets, fresh-bucket case. -/
theorem alGet_foldl_addToBucket_none : ∀ (L : List Node)
    (t : List (ContentHash × List Node)) (h : ContentHash),
    alGet h t = none →
    alGet h (L.foldl addToBucket t) =
      match L.filter (fun n => decide (n.node_hash = h)) with
      | [] => none
      | x :: fl => some (x :: fl) := by
  intro L
  induction L with
  | nil => intro t h hg; simp [hg]
  | cons n rest ih =>
    intro t h hg
    rw [List.foldl_cons, List.filter_cons]
    by_cases heq : n.node_hash = h
    · have hd : (decide (n.node_hash = h)) = true := by simp [heq]
      rw [hd]
      simp only [if_true]
      rcases hg0 : alGet n.node_hash t with _ | ns0
      · have haddb : addToBucket t n = t ++ [(n.node_hash, [n])] := by
          unfold addToBucket
          rw [hg0]
        rw [haddb]
        have hg2 : alGet h (t ++ [(n.node_hash, [n])]) = some [n] := by
          rw [alGet_append, hg, heq]
          simp [alGet]
        rw [alGet_foldl_addToBucket_some rest _ h [n] hg2]
        simp
      · rw [heq] at hg0
        rw [hg0] at hg
        cases hg
    · have hd : (decide (n.node_hash = h)) = false := by simp [heq]
      rw [hd]
      simp only [Bool.false_eq_true, if_false]
      rcases hg0 : alGet n.node_hash t with _ | ns0
      · have haddb : addToBucket t n = t ++ [(n.node_hash, [n])] := by
          unfold addToBucket
          rw [hg0]
        rw [haddb]
        have hg2 : alGet h (t ++ [(n.node_hash, [n])]) = none := by
          rw [alGet_append, hg]
          simp [alGet, heq]
        exact ih _ h hg2
      · have haddb : addToBucket t n = alSet n.node_hash (ns0 ++ [n]) t := by
          unfold addToBucket
          rw [hg0]
        rw [haddb]
        have hg2 : alGet h (alSet n.node_hash (ns0 ++ [n]) t) = none := by
          rw [alGet_alSet_ne (ns0 ++ [n]) (Ne.symm heq) t]
          exact hg
        exact ih _ h hg2

theorem findIdx?_go_decomp {α : Type} (p : α → Bool) :
    ∀ (l : List α) (i j : Nat), List.findIdx? p l i = some j →
      ∃ l1 x l2, l = l1 ++ x :: l2 ∧ i + l1.length = j ∧ p x = true ∧
        ∀ y ∈ l1, p y = false := by
  intro l
  induction l with
  | nil => intro i j h; simp [List.findIdx?] at h
  | cons a rest ih =>
    intro i j h
    rw [List.findIdx?_cons] at h
    by_cases hp : p a = true
    · rw [if_pos hp] at h
      injection h with h1
      exact ⟨[], a, rest, rfl, by simpa using h1, hp, by intro y hy; cases hy⟩
    · rw [if_neg hp] at h
      obtain ⟨l1, x, l2, hdecomp, hlen, hx, hprev⟩ := ih (i + 1) j h
      refine ⟨a :: l1, x, l2, by rw [hdecomp]; simp, by simp; omega, hx, ?_⟩
      intro y hy
      rcases List.mem_cons.mp hy with hy | hy
      · rw [hy]
        exact Bool.eq_false_iff.mpr hp
      · exact hprev y hy

theorem eraseIdx_append_cons {α : Type} :
    ∀ (l1 : List α) (x : α) (l2 : List α),
      (l1 ++ x :: l2).eraseIdx l1.length = l1 ++ l2 := by
  intro l1
  induction l1 with
  | nil => intro x l2; rfl
  | cons a rest ih =>
    intro x l2
    simp only [List.cons_append, List.length_cons, List.eraseIdx]
    exact congrArg (fun l => a :: l) (ih x l2)

theorem findIdx?_none_forall {α : Type} (p : α → Bool) :
    ∀ (l : List α) (i : Nat), List.findIdx? p l i = none →
      ∀ x ∈ l, p x = false := by
  intro l
  induction l with
  | nil => intro i _ x hx; cases hx
  | cons a rest ih =>
    intro i h x hx
    rw [List.findIdx?_cons] at h
    by_cases hp : p a = true
    · rw [if_pos hp] at h; cases h
    · rw [if_neg hp] at h
      rcases List.mem_cons.mp hx with hx | hx
      · rw [hx]; exact Bool.eq_false_iff.mpr hp
      · exact ih (i + 1) h x hx

theorem p1Step_eq_of_get {st : P1State} {m : Node} {ns : List Node}
    (hget : alGet m.node_hash st.table = some ns) :
    p1Step st m = p1Match st m ns := by
  unfold p1Step
  rw [hget]

theorem p1Match_eq_of_find {st : P1State} {m : Node} {ns : List Node} {idx : Nat}
    (hf : List.findIdx? (fun n => decide (n.path = m.path)) ns = some idx) :
    p1Match st m ns =
      { st with table := alSet m.node_hash (ns.eraseIdx idx) st.table } := by
  unfold p1Match
  rw [hf]

/-- The first loop of `build_task_queue`, run on two identical trees:
every destination node consumes its own bucket entry, so the tables drain
completely and no pending move or delete is ever recorded. -/
theorem phase1_loop : ∀ (R : List Node) (st : P1State),
    st.to_move = [] → st.to_del = [] →
    ((st.table.map (fun e => e.1)).Nodup) →
    tableTotal st.table = R.length →
    (∀ m ∈ R, ∃ ns, alGet m.node_hash st.table = some ns ∧
      0 < ns.countP (fun x => decide (x.path = m.path))) →
    ((R.map (fun x => x.path)).Nodup) →
    (R.foldl p1Step st).to_move = [] ∧ (R.foldl p1Step st).to_del = [] ∧
    tableTotal (R.foldl p1Step st).table = 0 := by
  intro R
  induction R with
  | nil =>
    intro st h1 h2 _ h4 _ _
    exact ⟨h1, h2, h4⟩
  | cons m R2 ih =>
    intro st h1 h2 hnodup htotal hbuckets hpaths
    obtain ⟨ns, hget, hcount⟩ := hbuckets m (List.mem_cons_self m R2)
    have hfind : ∃ idx, List.findIdx? (fun n => decide (n.path = m.path)) ns =
        some idx := by
      rcases hf : List.findIdx? (fun n => decide (n.path = m.path)) ns with _ | idx
      · exfalso
        obtain ⟨x0, hx0mem, hx0p⟩ := List.countP_pos_iff.mp hcount
        have := findIdx?_none_forall _ ns 0 hf x0 hx0mem
        rw [this] at hx0p
        cases hx0p
      · exact ⟨idx, hf⟩
    obtain ⟨idx, hfind⟩ := hfind
    obtain ⟨ns1, x, ns2, hdecomp, hlen, hxp, _⟩ :=
      findIdx?_go_decomp _ ns 0 idx hfind
    have hxpath : x.path = m.path := by
      simpa using hxp
    have hlen2 : ns1.length = idx := by omega
    have herase : ns.eraseIdx idx = ns1 ++ ns2 := by
      rw [hdecomp, ← hlen2]
      exact eraseIdx_append_cons ns1 x ns2
    have hstep : p1Step st m =
        { st with table := alSet m.node_hash (ns.eraseIdx idx) st.table } :=
      (p1Step_eq_of_get hget).trans (p1Match_eq_of_find hfind)
    rw [List.foldl_cons, hstep]
    have hnodup2 : ((alSet m.node_hash (ns.eraseIdx idx) st.table).map
        (fun e => e.1)).Nodup := by
      rw [alSet_keys]
      exact hnodup
    have hlenerase : (ns.eraseIdx idx).length + 1 = ns.length := by
      rw [herase, hdecomp]
      simp
      omega
    have htotal2 : tableTotal (alSet m.node_hash (ns.eraseIdx idx) st.table) =
        R2.length := by
      rw [tableTotal_alSet _ hnodup hget]
      have := length_le_tableTotal_of_get hget
      simp only [List.length_cons] at htotal
      omega
    have hbuckets2 : ∀ m2 ∈ R2, ∃ ns2b,
        alGet m2.node_hash (alSet m.node_hash (ns.eraseIdx idx) st.table) =
          some ns2b ∧
        0 < ns2b.countP (fun y => decide (y.path = m2.path)) := by
      intro m2 hm2
      obtain ⟨nsb, hgetb, hcountb⟩ := hbuckets m2 (List.mem_cons_of_mem m hm2)
      have hpathne : m2.path ≠ m.path := by
        intro hcontra
        have hmn := (List.nodup_cons.mp hpaths).1
        exact hmn (List.mem_map.mpr ⟨m2, hm2, hcontra⟩)
      by_cases hhash : m2.node_hash = m.node_hash
      · have hnseq : nsb = ns := by
          rw [hhash] at hgetb
          rw [hgetb] at hget
          injection hget
        rw [hnseq] at hcountb
        refine ⟨ns.eraseIdx idx, ?_, ?_⟩
        · rw [hhash, alGet_alSet_self, hget]
          rfl
        · rw [herase]
          have hc : ns.countP (fun y => decide (y.path = m2.path)) =
              (ns1 ++ ns2).countP (fun y => decide (y.path = m2.path)) := by
            rw [hdecomp, List.countP_append, List.countP_cons,
              List.countP_append]
            have hxf : (decide (x.path = m2.path)) = false := by
              simp [hxpath]
              intro hx2
              exact absurd hx2.symm hpathne
            rw [hxf]
            simp
          rw [← hc]
          exact hcountb
      · refine ⟨nsb, ?_, hcountb⟩
        rw [alGet_alSet_ne _ hhash]
        exact hgetb
    exact ih _ h1 h2 hnodup2 htotal2 hbuckets2 (List.nodup_cons.mp hpaths).2

theorem flatMap_values_eq_nil {t : List (ContentHash × List Node)}
    (h : tableTotal t = 0) : t.flatMap (fun p => p.2) = [] := by
  induction t with
  | nil => rfl
  | cons e rest ih =>
    simp only [tableTotal, List.map_cons, List.sum_cons] at h
    have he : e.2 = [] := List.length_eq_zero.mp (by omega)
    have hr : tableTotal rest = 0 := by
      simp only [tableTotal]
      omega
    simp [List.flatMap_cons, he, ih hr]

/-- C6: running `build_task_queue` on two identical well-formed trees
yields exactly six batches, each empty: every destination node finds a
same-path identity match and consumes it, the content table drains to
empty, so no move, upload, create or delete is generated. -/
theorem C6_idempotent (T : Node) (hwf : T.wfB = true) :
    build_task_queue T T = [[], [], [], [], [], []] := by
  have hinit_nodup : ((build_node_hash_table T).map (fun e => e.1)).Nodup := by
    unfold build_node_hash_table
    exact foldl_addToBucket_keys_nodup T.bfs [] (by simp)
  have hinit_total : tableTotal (build_node_hash_table T) = T.bfs.length := by
    unfold build_node_hash_table
    rw [tableTotal_foldl_addToBucket T.bfs [] (by simp)]
    simp [tableTotal]
  have hinit_buckets : ∀ m ∈ T.bfs, ∃ ns,
      alGet m.node_hash (build_node_hash_table T) = some ns ∧
      0 < ns.countP (fun x => decide (x.path = m.path)) := by
    intro m hm
    have hmem : m ∈ T.bfs.filter (fun n => decide (n.node_hash = m.node_hash)) := by
      rw [List.mem_filter]
      exact ⟨hm, by simp⟩
    have hchar := alGet_foldl_addToBucket_none T.bfs [] m.node_hash rfl
    rcases hf : T.bfs.filter (fun n => decide (n.node_hash = m.node_hash)) with _ | ⟨x, fl⟩
    · rw [hf] at hmem; cases hmem
    · rw [hf] at hchar
      refine ⟨x :: fl, hchar, ?_⟩
      rw [← hf]
      rw [List.countP_pos_iff]
      exact ⟨m, hmem, by simp⟩
  have hloop := phase1_loop T.bfs
    { table := build_node_hash_table T, to_move := [], to_del := [] }
    rfl rfl hinit_nodup hinit_total hinit_buckets (bfs_paths_nodup T hwf)
  have hphase1 : phase1 T T = T.bfs.foldl p1Step
      { table := build_node_hash_table T, to_move := [], to_del := [] } := rfl
  obtain ⟨hmv, hdl, htot⟩ := hloop
  have hs2 : phase2 (phase1 T T) =
      { to_move := [], to_del := [], queue_0 := [], queue_1 := [],
        queue_2 := [], queue_4 := [], ctr := 0 } := by
    unfold phase2
    rw [hphase1] at *
    rw [flatMap_values_eq_nil htot]
    simp only [List.foldl_nil]
    rw [hmv, hdl]
  show [q0Final (phase2 (phase1 T T)), q1Final (phase2 (phase1 T T)),
    q2Final (phase2 (phase1 T T)), q3Final (phase2 (phase1 T T)),
    (phase2 (phase1 T T)).queue_4,
    q5Final (build_path_hash_table T) (phase2 (phase1 T T))] = _
  rw [hs2]
  rfl

/-- Witness for C6 at a concrete well-formed tree. -/
theorem C6_idempotent_witness :
    build_task_queue treeWit treeWit = [[], [], [], [], [], []] :=
  C6_idempotent treeWit (by decide)

/-! Association-list and rescue-loop infrastructure. -/

theorem alGet_mem {κ ν : Type} [DecidableEq κ] {k : κ} {l : List (κ × ν)}
    {v : ν} (h : alGet k l = some v) : (k, v) ∈ l := by
  unfold alGet at h
  rcases hf : l.find? (fun p => decide (p.1 = k)) with _ | e
  · rw [hf] at h; cases h
  · rw [hf] at h
    have he1 : e.1 = k := by simpa using List.find?_some hf
    have he2 : e.2 = v := by simpa using h
    have hmem := List.mem_of_find?_eq_some hf
    have heq : e = (k, v) := by
      cases e; simp_all
    rw [← heq]; exact hmem

theorem mem_alRemove {κ ν : Type} [DecidableEq κ] {k : κ} {l : List (κ × ν)}
    {e : κ × ν} (h : e ∈ alRemove k l) : e ∈ l :=
  List.mem_of_mem_filter h

theorem alRemove_keys_sub {κ ν : Type} [DecidableEq κ] {k k2 : κ}
    {l : List (κ × ν)} (h : k2 ∈ (alRemove k l).map Prod.fst) :
    k2 ∈ l.map Prod.fst := by
  rcases List.mem_map.mp h with ⟨e, he, hk⟩
  exact List.mem_map.mpr ⟨e, mem_alRemove he, hk⟩

theorem alGet_alRemove_ne {κ ν : Type} [DecidableEq κ] {k k2 : κ}
    {l : List (κ × ν)} (h : k ≠ k2) :
    alGet k (alRemove k2 l) = alGet k l := by
  induction l with
  | nil => rfl
  | cons e rest ih =>
    by_cases he : e.1 = k2
    · have h1 : alRemove k2 (e :: rest) = alRemove k2 rest := by
        simp [alRemove, List.filter_cons, he]
      have hne : e.1 ≠ k := by rw [he]; exact fun hh => h hh.symm
      have h2 : alGet k (e :: rest) = alGet k rest := by
        unfold alGet
        rw [List.find?_cons_of_neg _ (by simpa using hne)]
      rw [h1, h2]; exact ih
    · have h1 : alRemove k2 (e :: rest) = e :: alRemove k2 rest := by
        simp [alRemove, List.filter_cons, he]
      rw [h1]
      by_cases hk : e.1 = k
      · unfold alGet
        rw [List.find?_cons_of_pos _ (by simpa using hk),
          List.find?_cons_of_pos _ (by simpa using hk)]
      · unfold alGet
        rw [List.find?_cons_of_neg _ (by simpa using hk),
          List.find?_cons_of_neg _ (by simpa using hk)]
        exact ih

theorem mem_alInsert {κ ν : Type} [DecidableEq κ] {k : κ} {v : ν}
    {l : List (κ × ν)} {e : κ × ν} (h : e ∈ alInsert k v l) :
    e = (k, v) ∨ e ∈ l := by
  unfold alInsert at h
  split at h
  · unfold alSet at h
    rcases List.mem_map.mp h with ⟨p, hp, he⟩
    by_cases hpk : p.1 = k
    · left; rw [← he]; simp [hpk]
    · right; rw [← he]; simp only [if_neg hpk]; exact hp
  · rcases List.mem_append.mp h with h1 | h1
    · right; exact h1
    · left; simpa using h1

theorem alInsert_keys_nodup {κ ν : Type} [DecidableEq κ] {k : κ} {v : ν}
    {l : List (κ × ν)} (h : (l.map Prod.fst).Nodup) :
    ((alInsert k v l).map Prod.fst).Nodup := by
  unfold alInsert
  split
  · rw [alSet_keys]; exact h
  · rename_i hany
    rw [List.map_append]
    simp only [List.map_cons, List.map_nil]
    rw [List.nodup_append]
    refine ⟨h, List.nodup_singleton _, ?_⟩
    intro a ha hb
    simp only [List.mem_singleton] at hb
    subst hb
    rcases List.mem_map.mp ha with ⟨p, hp, hpk⟩
    exact hany (List.any_eq_true.mpr ⟨p, hp, by simp [hpk]⟩)

theorem rmStep_rescue (path : Path) (done : List (Path × (Task × Bool)))
    (q0 : List Task) (c : Nat) (k f t : Path) (b : Bool)
    (hp : pathStartsWith k path = true) :
    rmStep path (done, q0, c) (k, (Task.Move f t, b)) =
      (done ++ [(k, (Task.Move [tempName c] t, b))],
       q0 ++ [Task.Move f [tempName c]], c + 1) := by
  simp [rmStep, hp]

theorem rmStep_skip (path : Path) (done : List (Path × (Task × Bool)))
    (q0 : List Task) (c : Nat) (k : Path) (task : Task) (b : Bool)
    (hp : pathStartsWith k path = false) :
    rmStep path (done, q0, c) (k, (task, b)) =
      (done ++ [(k, (task, b))], q0, c) := by
  simp [rmStep, hp]

theorem rmStep_eq (path : Path) (done : List (Path × (Task × Bool)))
    (q0 : List Task) (c : Nat) (k : Path) (task : Task) (b : Bool) :
    rmStep path (done, q0, c) (k, (task, b)) =
      (done ++ [(k, (task, b))], q0, c) ∨
    ∃ f t, task = Task.Move f t ∧ pathStartsWith k path = true ∧
      rmStep path (done, q0, c) (k, (task, b)) =
        (done ++ [(k, (Task.Move [tempName c] t, b))],
         q0 ++ [Task.Move f [tempName c]], c + 1) := by
  by_cases hp : pathStartsWith k path = true
  · cases task with
    | Move f t =>
      exact Or.inr ⟨f, t, rfl, hp, rmStep_rescue path done q0 c k f t b hp⟩
    | Upload p => left; simp [rmStep, hp]
    | CreateDir p => left; simp [rmStep, hp]
    | Delete p => left; simp [rmStep, hp]
  · left
    exact rmStep_skip path done q0 c k task b (by simpa using hp)

theorem rmFoldl_ext (path : Path) :
    ∀ (tm done : List (Path × (Task × Bool))) (q0 : List Task) (c : Nat),
    ∃ ext ext2 c2,
      tm.foldl (rmStep path) (done, q0, c) = (done ++ ext, q0 ++ ext2, c2) := by
  intro tm
  induction tm with
  | nil => intro done q0 c; exact ⟨[], [], c, by simp⟩
  | cons e rest ih =>
    intro done q0 c
    obtain ⟨k, task, b⟩ := e
    rw [List.foldl_cons]
    rcases rmStep_eq path done q0 c k task b with heq | ⟨f, t, htask, hp, heq⟩
    · rw [heq]
      obtain ⟨ext, ext2, c2, hr⟩ := ih (done ++ [(k, (task, b))]) q0 c
      exact ⟨[(k, (task, b))] ++ ext, ext2, c2, by rw [hr]; simp⟩
    · rw [heq]
      obtain ⟨ext, ext2, c2, hr⟩ := ih (done ++ [(k, (Task.Move [tempName c] t, b))])
        (q0 ++ [Task.Move f [tempName c]]) (c + 1)
      exact ⟨[(k, (Task.Move [tempName c] t, b))] ++ ext,
        [Task.Move f [tempName c]] ++ ext2, c2, by rw [hr]; simp⟩

theorem rmFoldl_keys (path : Path) :
    ∀ (tm done : List (Path × (Task × Bool))) (q0 : List Task) (c : Nat),
    (tm.foldl (rmStep path) (done, q0, c)).1.map Prod.fst =
      done.map Prod.fst ++ tm.map Prod.fst := by
  intro tm
  induction tm with
  | nil => intro done q0 c; simp
  | cons e rest ih =>
    intro done q0 c
    obtain ⟨k, task, b⟩ := e
    rw [List.foldl_cons]
    rcases rmStep_eq path done q0 c k task b with heq | ⟨f, t, htask, hp, heq⟩
    · rw [heq, ih]; simp
    · rw [heq, ih]; simp

theorem rmFoldl_mem (path : Path) :
    ∀ (tm done : List (Path × (Task × Bool))) (q0 : List Task) (c : Nat)
      (e2 : Path × (Task × Bool)),
    e2 ∈ (tm.foldl (rmStep path) (done, q0, c)).1 →
    e2 ∈ done ∨ ∃ k task b, (k, (task, b)) ∈ tm ∧
      (e2 = (k, (task, b)) ∨ ∃ f t c2, task = Task.Move f t ∧
        pathStartsWith k path = true ∧
        e2 = (k, (Task.Move [tempName c2] t, b))) := by
  intro tm
  induction tm with
  | nil => intro done q0 c e2 h; exact Or.inl h
  | cons e rest ih =>
    intro done q0 c e2 h
    obtain ⟨k, task, b⟩ := e
    rw [List.foldl_cons] at h
    rcases rmStep_eq path done q0 c k task b with heq | ⟨f, t, htask, hp, heq⟩
    · rw [heq] at h
      rcases ih _ _ _ _ h with hd | ⟨k2, t2, b2, hmem, hrel⟩
      · rcases List.mem_append.mp hd with hd2 | hd2
        · exact Or.inl hd2
        · simp only [List.mem_singleton] at hd2
          exact Or.inr ⟨k, task, b, List.mem_cons_self _ _, Or.inl hd2⟩
      · exact Or.inr ⟨k2, t2, b2, List.mem_cons_of_mem _ hmem, hrel⟩
    · rw [heq] at h
      rcases ih _ _ _ _ h with hd | ⟨k2, t2, b2, hmem, hrel⟩
      · rcases List.mem_append.mp hd with hd2 | hd2
        · exact Or.inl hd2
        · simp only [List.mem_singleton] at hd2
          exact Or.inr ⟨k, task, b, List.mem_cons_self _ _,
            Or.inr ⟨f, t, c, htask, hp, hd2⟩⟩
      · exact Or.inr ⟨k2, t2, b2, List.mem_cons_of_mem _ hmem, hrel⟩

theorem rmFoldl_q0_mem (path : Path) :
    ∀ (tm done : List (Path × (Task × Bool))) (q0 : List Task) (c : Nat)
      (t2 : Task),
    t2 ∈ (tm.foldl (rmStep path) (done, q0, c)).2.1 →
    t2 ∈ q0 ∨ ∃ k f t c2 b, t2 = Task.Move f [tempName c2] ∧
      (k, (Task.Move f t, b)) ∈ tm ∧ pathStartsWith k path = true ∧
      (k, (Task.Move [tempName c2] t, b)) ∈
        (tm.foldl (rmStep path) (done, q0, c)).1 := by
  intro tm
  induction tm with
  | nil => intro done q0 c t2 h; exact Or.inl h
  | cons e rest ih =>
    intro done q0 c t2 h
    obtain ⟨k, task, b⟩ := e
    rw [List.foldl_cons] at h ⊢
    rcases rmStep_eq path done q0 c k task b with heq | ⟨f, t, htask, hp, heq⟩
    · rw [heq] at h ⊢
      rcases ih _ _ _ _ h with h0 | ⟨k2, f2, t3, c2, b2, ht2, hmem, hp2, hm2⟩
      · exact Or.inl h0
      · exact Or.inr ⟨k2, f2, t3, c2, b2, ht2,
          List.mem_cons_of_mem _ hmem, hp2, hm2⟩
    · rw [heq] at h ⊢
      rcases ih _ _ _ _ h with h0 | ⟨k2, f2, t3, c2, b2, ht2, hmem, hp2, hm2⟩
      · rcases List.mem_append.mp h0 with h1 | h1
        · exact Or.inl h1
        · simp only [List.mem_singleton] at h1
          subst htask
          refine Or.inr ⟨k, f, t, c, b, h1, List.mem_cons_self _ _, hp, ?_⟩
          obtain ⟨ext, ext2, c3, hr⟩ := rmFoldl_ext path rest
            (done ++ [(k, (Task.Move [tempName c] t, b))])
            (q0 ++ [Task.Move f [tempName c]]) (c + 1)
          rw [hr]
          exact List.mem_append.mpr (Or.inl (List.mem_append.mpr (Or.inr (by simp))))
      · subst htask
        exact Or.inr ⟨k2, f2, t3, c2, b2, ht2,
          List.mem_cons_of_mem _ hmem, hp2, hm2⟩

theorem rmFoldl_rescued (path : Path) :
    ∀ (tm done : List (Path × (Task × Bool))) (q0 : List Task) (c : Nat)
      (k f t : Path) (b : Bool),
    (k, (Task.Move f t, b)) ∈ tm → pathStartsWith k path = true →
    ∃ c2, (k, (Task.Move [tempName c2] t, b)) ∈
        (tm.foldl (rmStep path) (done, q0, c)).1 ∧
      Task.Move f [tempName c2] ∈ (tm.foldl (rmStep path) (done, q0, c)).2.1 := by
  intro tm
  induction tm with
  | nil => intro _ _ _ _ _ _ _ h _; cases h
  | cons e rest ih =>
    intro done q0 c k f t b hmem hp
    rw [List.foldl_cons]
    rcases List.mem_cons.mp hmem with he | hmem2
    · rw [← he, rmStep_rescue path done q0 c k f t b hp]
      obtain ⟨ext, ext2, c3, hr⟩ := rmFoldl_ext path rest
        (done ++ [(k, (Task.Move [tempName c] t, b))])
        (q0 ++ [Task.Move f [tempName c]]) (c + 1)
      refine ⟨c, ?_, ?_⟩
      · rw [hr]
        exact List.mem_append.mpr (Or.inl (List.mem_append.mpr (Or.inr (by simp))))
      · rw [hr]
        exact List.mem_append.mpr (Or.inl (List.mem_append.mpr (Or.inr (by simp))))
    · obtain ⟨k2, task2, b2⟩ := e
      rcases rmStep_eq path done q0 c k2 task2 b2 with heq | ⟨f2, t2, htask, hp2, heq⟩
      · rw [heq]; exact ih _ _ _ k f t b hmem2 hp
      · rw [heq]; exact ih _ _ _ k f t b hmem2 hp

theorem rmFoldl_skipped (path : Path) :
    ∀ (tm done : List (Path × (Task × Bool))) (q0 : List Task) (c : Nat)
      (k : Path) (v : Task × Bool),
    (k, v) ∈ tm → pathStartsWith k path = false →
    (k, v) ∈ (tm.foldl (rmStep path) (done, q0, c)).1 := by
  intro tm
  induction tm with
  | nil => intro _ _ _ _ _ h _; cases h
  | cons e rest ih =>
    intro done q0 c k v hmem hp
    rw [List.foldl_cons]
    rcases List.mem_cons.mp hmem with he | hmem2
    · obtain ⟨task, b⟩ := v
      rw [← he, rmStep_skip path done q0 c k task b hp]
      obtain ⟨ext, ext2, c3, hr⟩ := rmFoldl_ext path rest
        (done ++ [(k, (task, b))]) q0 c
      rw [hr]
      exact List.mem_append.mpr (Or.inl (List.mem_append.mpr (Or.inr (by simp))))
    · obtain ⟨k2, task2, b2⟩ := e
      rcases rmStep_eq path done q0 c k2 task2 b2 with heq | ⟨f2, t2, htask, hp2, heq⟩
      · rw [heq]; exact ih _ _ _ k v hmem2 hp
      · rw [heq]; exact ih _ _ _ k v hmem2 hp

theorem p2Step_cases (s : P2State) (n : Node) (hdel : delShape s) :
    ((p2Step s n).to_move = s.to_move ∧ (p2Step s n).queue_0 = s.queue_0 ∨
      ((p2Step s n).to_move = (rescueMoves n.path s.to_move s.queue_0 s.ctr).1 ∧
       (p2Step s n).queue_0 = (rescueMoves n.path s.to_move s.queue_0 s.ctr).2.1 ∧
       n.is_file = true)) ∧
    ((p2Step s n).queue_1 = s.queue_1 ∨
      ((p2Step s n).queue_1 = s.queue_1 ++ [Task.Delete n.path] ∧
       n.path ∈ s.to_del.map Prod.fst)) ∧
    ((p2Step s n).to_del = s.to_del ∨
      (p2Step s n).to_del = alRemove n.path s.to_del) := by
  by_cases hf : n.is_file = true
  · have e1 : (p2Step s n).to_move = (p2FileDel s n).to_move := by
      unfold p2Step; rw [if_pos hf]
    have e2 : (p2Step s n).queue_0 = (p2FileDel s n).queue_0 := by
      unfold p2Step; rw [if_pos hf]
    have e3 : (p2Step s n).queue_1 = (p2FileDel s n).queue_1 := by
      unfold p2Step; rw [if_pos hf]
    have e4 : (p2Step s n).to_del = (p2FileDel s n).to_del := by
      unfold p2Step; rw [if_pos hf]
    rw [e1, e2, e3, e4]
    rcases hg : alGet n.path s.to_del with _ | db
    · have e5 : p2FileDel s n = s := by unfold p2FileDel; rw [hg]
      rw [e5]
      exact ⟨Or.inl ⟨rfl, rfl⟩, Or.inl rfl, Or.inl rfl⟩
    · have e5 : p2FileDel s n = p2FileHit s n db := by unfold p2FileDel; rw [hg]
      have hdb : db.1 = Task.Delete n.path := hdel (n.path, db) (alGet_mem hg)
      rw [e5]
      by_cases hb : db.2 = true
      · have e6 : p2FileHit s n db = { s with to_del := alRemove n.path s.to_del } := by
          unfold p2FileHit; rw [if_pos hb]
        rw [e6]
        exact ⟨Or.inl ⟨rfl, rfl⟩, Or.inl rfl, Or.inr rfl⟩
      · have e6 : p2FileHit s n db = p2FileConv s n (Task.Delete n.path) := by
          unfold p2FileHit; rw [if_neg hb, hdb]
        rw [e6]
        refine ⟨Or.inr ⟨rfl, rfl, hf⟩, Or.inr ⟨rfl, ?_⟩, Or.inr rfl⟩
        exact List.mem_map.mpr ⟨(n.path, db), alGet_mem hg, rfl⟩
  · have e0 : p2Step s n = p2DirStep s n := by
      unfold p2Step; rw [if_neg hf]
    rw [e0]
    rcases hg : alGet n.path s.to_del with _ | db
    · have e5 : p2DirStep s n = p2DirCreate s n := by unfold p2DirStep; rw [hg]
      rw [e5]
      unfold p2DirCreate
      by_cases hp : n.path ≠ []
      · rw [if_pos hp]; exact ⟨Or.inl ⟨rfl, rfl⟩, Or.inl rfl, Or.inl rfl⟩
      · rw [if_neg hp]; exact ⟨Or.inl ⟨rfl, rfl⟩, Or.inl rfl, Or.inl rfl⟩
    · have e5 : p2DirStep s n = p2DirHit s n db := by unfold p2DirStep; rw [hg]
      rw [e5]
      unfold p2DirHit
      by_cases hb : ¬ db.2 = true
      · rw [if_pos hb]; exact ⟨Or.inl ⟨rfl, rfl⟩, Or.inl rfl, Or.inr rfl⟩
      · rw [if_neg hb]
        unfold p2DirCreate
        by_cases hp : n.path ≠ []
        · rw [if_pos hp]
          refine ⟨Or.inl ⟨rfl, rfl⟩, Or.inr ⟨rfl, ?_⟩, Or.inr rfl⟩
          exact List.mem_map.mpr ⟨(n.path, db), alGet_mem hg, rfl⟩
        · rw [if_neg hp]
          refine ⟨Or.inl ⟨rfl, rfl⟩, Or.inr ⟨rfl, ?_⟩, Or.inr rfl⟩
          exact List.mem_map.mpr ⟨(n.path, db), alGet_mem hg, rfl⟩

theorem p2Step_queue0_ext (s : P2State) (n : Node) (hdel : delShape s) :
    ∃ ext, (p2Step s n).queue_0 = s.queue_0 ++ ext := by
  rcases (p2Step_cases s n hdel).1 with ⟨_, h0⟩ | ⟨_, h0, _⟩
  · exact ⟨[], by rw [h0]; simp⟩
  · obtain ⟨ext, ext2, c2, hr⟩ := rmFoldl_ext n.path s.to_move [] s.queue_0 s.ctr
    rw [h0]
    show ∃ ext, (s.to_move.foldl (rmStep n.path) ([], s.queue_0, s.ctr)).2.1 =
      s.queue_0 ++ ext
    rw [hr]
    exact ⟨ext2, rfl⟩

theorem p2Step_queue1_ext (s : P2State) (n : Node) (hdel : delShape s) :
    ∃ ext, (p2Step s n).queue_1 = s.queue_1 ++ ext := by
  rcases (p2Step_cases s n hdel).2.1 with h | ⟨h, _⟩
  · exact ⟨[], by rw [h]; simp⟩
  · exact ⟨[Task.Delete n.path], h⟩

theorem delShape_p2Step {s : P2State} (n : Node) (hdel : delShape s) :
    delShape (p2Step s n) := by
  rcases (p2Step_cases s n hdel).2.2 with h | h
  · intro e he; rw [h] at he; exact hdel e he
  · intro e he; rw [h] at he; exact hdel e (mem_alRemove he)

theorem p2Step_to_del_keys {s : P2State} (n : Node) (hdel : delShape s) :
    ∀ k ∈ (p2Step s n).to_del.map Prod.fst, k ∈ s.to_del.map Prod.fst := by
  rcases (p2Step_cases s n hdel).2.2 with h | h
  · intro k hk; rw [h] at hk; exact hk
  · intro k hk; rw [h] at hk; exact alRemove_keys_sub hk

theorem p2Step_to_move_keys {s : P2State} (n : Node) (hdel : delShape s) :
    (p2Step s n).to_move.map Prod.fst = s.to_move.map Prod.fst := by
  rcases (p2Step_cases s n hdel).1 with ⟨h, _⟩ | ⟨h, _, _⟩
  · rw [h]
  · rw [h]
    show (s.to_move.foldl (rmStep n.path) ([], s.queue_0, s.ctr)).1.map Prod.fst = _
    rw [rmFoldl_keys]
    simp

theorem mvShape_p2Step {s : P2State} (n : Node) (hdel : delShape s)
    (hmv : mvShape s) : mvShape (p2Step s n) := by
  rcases (p2Step_cases s n hdel).1 with ⟨h, _⟩ | ⟨h, _, _⟩
  · intro e he; rw [h] at he; exact hmv e he
  · intro e he
    rw [h] at he
    have he2 : e ∈ (s.to_move.foldl (rmStep n.path) ([], s.queue_0, s.ctr)).1 := he
    rcases rmFoldl_mem n.path s.to_move [] s.queue_0 s.ctr e he2 with
      h0 | ⟨k, task, b, hmem, hrel⟩
    · cases h0
    · rcases hrel with hrel | ⟨f, t, c2, htask, hp, hrel⟩
      · rw [hrel]; exact hmv _ hmem
      · rw [hrel]
        exact ⟨[tempName c2], t, b, rfl, Or.inr ⟨c2, rfl⟩⟩

theorem q0Shape_p2Step {keys0 : List Path} {s : P2State} (n : Node)
    (hdel : delShape s) (hmv : mvShape s)
    (hkeys : s.to_move.map Prod.fst = keys0)
    (hq0 : q0Shape keys0 s) : q0Shape keys0 (p2Step s n) := by
  rcases (p2Step_cases s n hdel).1 with ⟨_, h⟩ | ⟨_, h, _⟩
  · intro t ht; rw [h] at ht; exact hq0 t ht
  · intro t ht
    rw [h] at ht
    have ht2 : t ∈ (s.to_move.foldl (rmStep n.path) ([], s.queue_0, s.ctr)).2.1 := ht
    rcases rmFoldl_q0_mem n.path s.to_move [] s.queue_0 s.ctr t ht2 with
      h0 | ⟨k, f, t3, c2, b, ht3, hmem, hp, _⟩
    · exact hq0 t h0
    · refine ⟨f, c2, ht3, ?_⟩
      rcases hmv (k, (Task.Move f t3, b)) hmem with ⟨f2, t4, b2, hsh, hor⟩
      simp only [Prod.mk.injEq, Task.Move.injEq] at hsh
      obtain ⟨⟨hf2, ht4⟩, hb2⟩ := hsh
      rcases hor with hk | ⟨c3, htemp⟩
      · left
        rw [← hkeys]
        have hfk : f = k := by rw [hf2]; exact hk
        rw [hfk]
        exact List.mem_map.mpr ⟨_, hmem, rfl⟩
      · right; exact ⟨c3, by rw [hf2]; exact htemp⟩

theorem p2Step_preserve_entry {s : P2State} {n : Node} {k : Path}
    {v : Task × Bool} (hdel : delShape s) (hmem : (k, v) ∈ s.to_move)
    (hno : (n.is_file && pathStartsWith k n.path) = false) :
    (k, v) ∈ (p2Step s n).to_move := by
  rcases (p2Step_cases s n hdel).1 with ⟨h, _⟩ | ⟨h, _, hf⟩
  · rw [h]; exact hmem
  · rw [h]
    have hp : pathStartsWith k n.path = false := by
      rw [hf] at hno; simpa using hno
    exact rmFoldl_skipped n.path s.to_move [] s.queue_0 s.ctr k v hmem hp

theorem p2Step_todel_get {s : P2State} {n : Node} {P : Path}
    (hdel : delShape s) (hne : P ≠ n.path) :
    alGet P (p2Step s n).to_del = alGet P s.to_del := by
  rcases (p2Step_cases s n hdel).2.2 with h | h
  · rw [h]
  · rw [h]; exact alGet_alRemove_ne hne

theorem p2Step_queue1_mem {s : P2State} {n : Node} (hdel : delShape s)
    {t : Task} (ht : t ∈ (p2Step s n).queue_1) :
    t ∈ s.queue_1 ∨
      (t = Task.Delete n.path ∧ n.path ∈ s.to_del.map Prod.fst) := by
  rcases (p2Step_cases s n hdel).2.1 with h | ⟨h, hkey⟩
  · rw [h] at ht; exact Or.inl ht
  · rw [h] at ht
    rcases List.mem_append.mp ht with h1 | h1
    · exact Or.inl h1
    · simp only [List.mem_singleton] at h1
      exact Or.inr ⟨h1, hkey⟩

theorem p2Step_rescue {s : P2State} {n : Node} (hf : n.is_file = true)
    (hget : alGet n.path s.to_del = some (Task.Delete n.path, false))
    {k f t : Path} {b : Bool}
    (hmem : (k, (Task.Move f t, b)) ∈ s.to_move)
    (hp : pathStartsWith k n.path = true) :
    ∃ c2, (k, (Task.Move [tempName c2] t, b)) ∈ (p2Step s n).to_move ∧
      Task.Move f [tempName c2] ∈ (p2Step s n).queue_0 ∧
      Task.Delete n.path ∈ (p2Step s n).queue_1 := by
  have e1 : (p2Step s n).to_move = (p2FileDel s n).to_move := by
    unfold p2Step; rw [if_pos hf]
  have e2 : (p2Step s n).queue_0 = (p2FileDel s n).queue_0 := by
    unfold p2Step; rw [if_pos hf]
  have e3 : (p2Step s n).queue_1 = (p2FileDel s n).queue_1 := by
    unfold p2Step; rw [if_pos hf]
  have e5 : p2FileDel s n = p2FileHit s n (Task.Delete n.path, false) := by
    unfold p2FileDel; rw [hget]
  have e6 : p2FileHit s n (Task.Delete n.path, false) =
      p2FileConv s n (Task.Delete n.path) := by
    unfold p2FileHit
    simp
  obtain ⟨c2, hm, hq⟩ := rmFoldl_rescued n.path s.to_move [] s.queue_0 s.ctr
    k f t b hmem hp
  refine ⟨c2, ?_, ?_, ?_⟩
  · rw [e1, e5, e6]; exact hm
  · rw [e2, e5, e6]; exact hq
  · rw [e3, e5, e6]
    show Task.Delete n.path ∈ s.queue_1 ++ [Task.Delete n.path]
    simp

theorem strBytes_append (a b : String) :
    strBytes (a ++ b) = strBytes a ++ strBytes b := by
  simp [strBytes, String.data_append]

theorem strStartsWith_tempName (c : Nat) :
    strStartsWith (tempName c) (".crustasync-") = true := by
  unfold strStartsWith tempName
  rw [strBytes_append, List.isPrefixOf_iff_prefix]
  exact List.prefix_append _ _

theorem headNonReservedB_temp_cons (c : Nat) (rest : List String) :
    headNonReservedB (tempName c :: rest) = false := by
  simp [headNonReservedB, strStartsWith_tempName]

theorem not_startsWith_temp {k : Path} {c : Nat}
    (h : headNonReservedB k = true) :
    pathStartsWith k [tempName c] = false := by
  cases k with
  | nil => rfl
  | cons a k2 =>
    unfold pathStartsWith
    cases hb : List.isPrefixOf [tempName c] (a :: k2) with
    | false => rfl
    | true =>
      exfalso
      have hpre : [tempName c] <+: a :: k2 := List.isPrefixOf_iff_prefix.mp hb
      rcases hpre with ⟨tail, htail⟩
      have ha : a = tempName c := by
        have := congrArg (fun l => l.headD ("")) htail
        simpa using this.symm
      rw [ha] at h
      rw [headNonReservedB_temp_cons] at h
      exact Bool.noConfusion h

theorem startsWith_singleton {p : Path} {x : String}
    (h : pathStartsWith [x] p = true) : p = [] ∨ p = [x] := by
  cases p with
  | nil => exact Or.inl rfl
  | cons a p2 =>
    unfold pathStartsWith at h
    have hpre : a :: p2 <+: [x] := List.isPrefixOf_iff_prefix.mp h
    have hlen := hpre.length_le
    simp at hlen
    rcases hpre with ⟨tail, htail⟩
    cases p2 with
    | cons b p3 => simp at hlen
    | nil =>
      right
      have := congrArg (fun l => l.headD ("")) htail
      simpa using congrArg (fun y => [y]) this

theorem p2_fold_basic (keys0 : List Path) :
    ∀ (L : List Node) (s : P2State),
    delShape s → mvShape s → q0Shape keys0 s →
    s.to_move.map Prod.fst = keys0 →
    delShape (L.foldl p2Step s) ∧ mvShape (L.foldl p2Step s) ∧
    q0Shape keys0 (L.foldl p2Step s) ∧
    (L.foldl p2Step s).to_move.map Prod.fst = keys0 := by
  intro L
  induction L with
  | nil => intro s h1 h2 h3 h4; exact ⟨h1, h2, h3, h4⟩
  | cons n rest ih =>
    intro s h1 h2 h3 h4
    rw [List.foldl_cons]
    exact ih (p2Step s n) (delShape_p2Step n h1) (mvShape_p2Step n h1 h2)
      (q0Shape_p2Step n h1 h2 h4 h3)
      (by rw [p2Step_to_move_keys n h1]; exact h4)

theorem p2_fold_queue0_mono :
    ∀ (L : List Node) (s : P2State), delShape s →
    ∀ t ∈ s.queue_0, t ∈ (L.foldl p2Step s).queue_0 := by
  intro L
  induction L with
  | nil => intro s _ t ht; exact ht
  | cons n rest ih =>
    intro s hdel t ht
    rw [List.foldl_cons]
    obtain ⟨ext, hext⟩ := p2Step_queue0_ext s n hdel
    exact ih (p2Step s n) (delShape_p2Step n hdel) t
      (by rw [hext]; exact List.mem_append.mpr (Or.inl ht))

theorem p2_fold_queue1_mono :
    ∀ (L : List Node) (s : P2State), delShape s →
    ∀ t ∈ s.queue_1, t ∈ (L.foldl p2Step s).queue_1 := by
  intro L
  induction L with
  | nil => intro s _ t ht; exact ht
  | cons n rest ih =>
    intro s hdel t ht
    rw [List.foldl_cons]
    obtain ⟨ext, hext⟩ := p2Step_queue1_ext s n hdel
    exact ih (p2Step s n) (delShape_p2Step n hdel) t
      (by rw [hext]; exact List.mem_append.mpr (Or.inl ht))

theorem p2_fold_preserve_entry :
    ∀ (L : List Node) (s : P2State) (k : Path) (v : Task × Bool),
    delShape s → (k, v) ∈ s.to_move →
    (∀ n ∈ L, (n.is_file && pathStartsWith k n.path) = false) →
    (k, v) ∈ (L.foldl p2Step s).to_move := by
  intro L
  induction L with
  | nil => intro s k v _ hmem _; exact hmem
  | cons n rest ih =>
    intro s k v hdel hmem hno
    rw [List.foldl_cons]
    exact ih (p2Step s n) k v (delShape_p2Step n hdel)
      (p2Step_preserve_entry hdel hmem (hno n (List.mem_cons_self _ _)))
      (fun m hm => hno m (List.mem_cons_of_mem _ hm))

theorem p2_fold_todel_get :
    ∀ (L : List Node) (s : P2State) (P : Path),
    delShape s → (∀ n ∈ L, n.path ≠ P) →
    alGet P (L.foldl p2Step s).to_del = alGet P s.to_del := by
  intro L
  induction L with
  | nil => intro s P _ _; rfl
  | cons n rest ih =>
    intro s P hdel hne
    rw [List.foldl_cons]
    rw [ih (p2Step s n) P (delShape_p2Step n hdel)
      (fun m hm => hne m (List.mem_cons_of_mem _ hm))]
    exact p2Step_todel_get hdel
      (fun h => hne n (List.mem_cons_self _ _) h.symm)

theorem p2_fold_queue1_mem :
    ∀ (L : List Node) (s : P2State), delShape s →
    ∀ t ∈ (L.foldl p2Step s).queue_1,
      t ∈ s.queue_1 ∨ ∃ p2, p2 ∈ s.to_del.map Prod.fst ∧ t = Task.Delete p2 := by
  intro L
  induction L with
  | nil => intro s _ t ht; exact Or.inl ht
  | cons n rest ih =>
    intro s hdel t ht
    rw [List.foldl_cons] at ht
    rcases ih (p2Step s n) (delShape_p2Step n hdel) t ht with h1 | ⟨p2, hp2, hteq⟩
    · rcases p2Step_queue1_mem hdel h1 with h2 | ⟨hteq, hkey⟩
      · exact Or.inl h2
      · exact Or.inr ⟨n.path, hkey, hteq⟩
    · exact Or.inr ⟨p2, p2Step_to_del_keys n hdel p2 hp2, hteq⟩

theorem p2_fold_origin :
    ∀ (L : List Node) (s : P2State), delShape s →
    ∀ e2 ∈ (L.foldl p2Step s).to_move, ∃ e ∈ s.to_move, e2.1 = e.1 ∧
      (e2 = e ∨ ∃ f f2 t bb, e.2 = (Task.Move f t, bb) ∧
        e2.2 = (Task.Move f2 t, bb)) := by
  intro L
  induction L with
  | nil => intro s _ e2 he; exact ⟨e2, he, rfl, Or.inl rfl⟩
  | cons n rest ih =>
    intro s hdel e2 he
    rw [List.foldl_cons] at he
    obtain ⟨e1, he1, hk1, hrel1⟩ := ih (p2Step s n) (delShape_p2Step n hdel) e2 he
    have hstep : ∃ e0 ∈ s.to_move, e1.1 = e0.1 ∧ (e1 = e0 ∨ ∃ f f2 t bb,
        e0.2 = (Task.Move f t, bb) ∧ e1.2 = (Task.Move f2 t, bb)) := by
      rcases (p2Step_cases s n hdel).1 with ⟨h, _⟩ | ⟨h, _, _⟩
      · rw [h] at he1; exact ⟨e1, he1, rfl, Or.inl rfl⟩
      · rw [h] at he1
        have he1b : e1 ∈ (s.to_move.foldl (rmStep n.path)
            ([], s.queue_0, s.ctr)).1 := he1
        rcases rmFoldl_mem n.path s.to_move [] s.queue_0 s.ctr e1 he1b with
          h0 | ⟨k, task, b, hmem, hrel⟩
        · cases h0
        · rcases hrel with hrel | ⟨f, t, c2, htask, hp, hrel⟩
          · exact ⟨(k, (task, b)), hmem, by rw [hrel], Or.inl hrel⟩
          · refine ⟨(k, (task, b)), hmem, by rw [hrel], Or.inr ?_⟩
            exact ⟨f, [tempName c2], t, b, by rw [htask], by rw [hrel]⟩
    obtain ⟨e0, he0, hk0, hrel0⟩ := hstep
    refine ⟨e0, he0, by rw [hk1, hk0], ?_⟩
    rcases hrel1 with hrel1 | ⟨f, f2, t, bb, hsh1, hsh2⟩
    · rw [hrel1]; exact hrel0
    · rcases hrel0 with hrel0 | ⟨g, g2, t2, bb2, hsh3, hsh4⟩
      · rw [← hrel0]; exact Or.inr ⟨f, f2, t, bb, hsh1, hsh2⟩
      · right
        refine ⟨g, f2, t2, bb2, hsh3, ?_⟩
        rw [hsh1] at hsh4
        simp only [Prod.mk.injEq, Task.Move.injEq] at hsh4
        obtain ⟨⟨hg2, ht2⟩, hbb⟩ := hsh4
        rw [hsh2, ht2, hbb]

theorem p2_fold_consume (keys0 : List Path) (cands : List Node)
    (hres : ∀ k ∈ keys0, headNonReservedB k = true)
    (hcnt : ∀ k ∈ keys0,
      cands.countP (fun c => c.is_file && pathStartsWith k c.path) ≤ 1) :
    ∀ (rest done : List Node) (s : P2State),
    cands = done ++ rest →
    delShape s → mvShape s →
    s.to_move.map Prod.fst = keys0 →
    q0Shape keys0 s →
    (∀ f t, Task.Move f t ∈ s.queue_0 →
      ∃ e ∈ s.to_move, ∃ t2 b, e.2 = (Task.Move t t2, b)) →
    (∀ e ∈ s.to_move, ∀ f t b, e.2 = (Task.Move f t, b) → f ≠ e.1 →
      rest.countP (fun c => c.is_file && pathStartsWith e.1 c.path) = 0) →
    ∀ f t, Task.Move f t ∈ (rest.foldl p2Step s).queue_0 →
      ∃ e ∈ (rest.foldl p2Step s).to_move, ∃ t2 b,
        e.2 = (Task.Move t t2, b) := by
  intro rest
  induction rest with
  | nil =>
    intro done s hsplit h1 h2 h3 h4 hcons hzero f t hmem
    exact hcons f t hmem
  | cons n rest2 ih =>
    intro done s hsplit h1 h2 h3 h4 hcons hzero f t hmem
    rw [List.foldl_cons] at hmem
    have h1s : delShape (p2Step s n) := delShape_p2Step n h1
    have h2s : mvShape (p2Step s n) := mvShape_p2Step n h1 h2
    have h3s : (p2Step s n).to_move.map Prod.fst = keys0 := by
      rw [p2Step_to_move_keys n h1]; exact h3
    have h4s : q0Shape keys0 (p2Step s n) := q0Shape_p2Step n h1 h2 h3 h4
    have hconss : ∀ f2 t2, Task.Move f2 t2 ∈ (p2Step s n).queue_0 →
        ∃ e ∈ (p2Step s n).to_move, ∃ t3 b, e.2 = (Task.Move t2 t3, b) := by
      intro f2 t2 hm2
      rcases (p2Step_cases s n h1).1 with ⟨hA, hB⟩ | ⟨hA, hB, hfile⟩
      · rw [hB] at hm2
        obtain ⟨e, he, t3, b, hsh⟩ := hcons f2 t2 hm2
        rw [hA]
        exact ⟨e, he, t3, b, hsh⟩
      · rw [hB] at hm2
        have hm2b : Task.Move f2 t2 ∈
            (s.to_move.foldl (rmStep n.path) ([], s.queue_0, s.ctr)).2.1 := hm2
        rcases rmFoldl_q0_mem n.path s.to_move [] s.queue_0 s.ctr _ hm2b with
          h0 | ⟨k, f3, t3, c2, b, hteq, hmemk, hp, hmemres⟩
        · obtain ⟨e, he, t3, b, hsh⟩ := hcons f2 t2 h0
          obtain ⟨f4, c4, hmv4, _⟩ := h4 (Task.Move f2 t2) h0
          simp only [Task.Move.injEq] at hmv4
          obtain ⟨hf4, ht4⟩ := hmv4
          have hk : e.1 ∈ keys0 := by
            rw [← h3]; exact List.mem_map.mpr ⟨e, he, rfl⟩
          have hfne : t2 ≠ e.1 := by
            intro hcontra
            have hnr := hres e.1 hk
            rw [← hcontra, ht4] at hnr
            rw [headNonReservedB_temp_cons c4 []] at hnr
            exact Bool.noConfusion hnr
          have hz := hzero e he t2 t3 b hsh hfne
          have hterm : (n.is_file && pathStartsWith e.1 n.path) = false := by
            cases hb : (n.is_file && pathStartsWith e.1 n.path)
            · rfl
            · exfalso
              have hb2 : (fun c : Node =>
                  c.is_file && pathStartsWith e.1 c.path) n = true := hb
              rw [List.countP_cons_of_pos
                (fun c : Node => c.is_file && pathStartsWith e.1 c.path)
                rest2 hb2] at hz
              omega
          obtain ⟨ke, ve⟩ := e
          have hpres := p2Step_preserve_entry h1 he hterm
          exact ⟨(ke, ve), hpres, t3, b, hsh⟩
        · rw [hA]
          simp only [Task.Move.injEq] at hteq
          obtain ⟨hf3, ht2⟩ := hteq
          refine ⟨(k, (Task.Move [tempName c2] t3, b)), hmemres, t3, b, ?_⟩
          rw [ht2]
    have hzeros : ∀ e ∈ (p2Step s n).to_move, ∀ f2 t2 b,
        e.2 = (Task.Move f2 t2, b) → f2 ≠ e.1 →
        rest2.countP (fun c => c.is_file && pathStartsWith e.1 c.path) = 0 := by
      intro e he f2 t2 b hsh hne
      rcases (p2Step_cases s n h1).1 with ⟨hA, _⟩ | ⟨hA, _, hfile⟩
      · rw [hA] at he
        have hz := hzero e he f2 t2 b hsh hne
        rw [List.countP_cons] at hz
        omega
      · rw [hA] at he
        have heb : e ∈ (s.to_move.foldl (rmStep n.path)
            ([], s.queue_0, s.ctr)).1 := he
        rcases rmFoldl_mem n.path s.to_move [] s.queue_0 s.ctr e heb with
          h0 | ⟨k, task, b2, hmemk, hrel⟩
        · cases h0
        · rcases hrel with hrel | ⟨f5, t5, c5, htask, hp, hrel⟩
          · rw [hrel] at hsh hne ⊢
            have hz := hzero (k, (task, b2)) hmemk f2 t2 b hsh hne
            rw [List.countP_cons] at hz
            omega
          · rcases h2 (k, (task, b2)) hmemk with ⟨f6, t6, b6, hsh6, hor6⟩
            rw [htask] at hsh6
            simp only [Prod.mk.injEq, Task.Move.injEq] at hsh6
            obtain ⟨⟨hf6, ht6⟩, hb6⟩ := hsh6
            have hk : k ∈ keys0 := by
              rw [← h3]; exact List.mem_map.mpr ⟨_, hmemk, rfl⟩
            have he1 : e.1 = k := by rw [hrel]
            rcases hor6 with hkey | ⟨c7, htemp⟩
            · have hglob := hcnt k hk
              have hpredn : (n.is_file && pathStartsWith k n.path) = true := by
                rw [hfile, hp]; rfl
              have hpredn2 : (fun c : Node =>
                  c.is_file && pathStartsWith k c.path) n = true := hpredn
              rw [hsplit, List.countP_append,
                List.countP_cons_of_pos
                  (fun c : Node => c.is_file && pathStartsWith k c.path)
                  rest2 hpredn2] at hglob
              rw [he1]
              omega
            · have hforig : f5 ≠ k := by
                intro hcontra
                have hnr := hres k hk
                rw [← hcontra, hf6, htemp] at hnr
                rw [headNonReservedB_temp_cons c7 []] at hnr
                exact Bool.noConfusion hnr
              have hz := hzero (k, (task, b2)) hmemk f5 t5 b2
                (by rw [htask]) hforig
              have hz2 : (n :: rest2).countP
                  (fun c => c.is_file && pathStartsWith k c.path) = 0 := hz
              rw [List.countP_cons] at hz2
              rw [he1]
              omega
    have hsplit2 : cands = (done ++ [n]) ++ rest2 := by
      rw [hsplit]; simp
    exact ih (done ++ [n]) (p2Step s n) hsplit2 h1s h2s h3s h4s hconss hzeros
      f t hmem

theorem p1Delete_shapes (st : P1State) (m : Node)
    (h1 : ∀ e ∈ st.to_move, ∃ t b, e.2 = (Task.Move e.1 t, b))
    (h2 : (st.to_move.map Prod.fst).Nodup)
    (h3 : ∀ e ∈ st.to_del, e.2.1 = Task.Delete e.1) :
    (∀ e ∈ (p1Delete st m).to_move, ∃ t b, e.2 = (Task.Move e.1 t, b)) ∧
    ((p1Delete st m).to_move.map Prod.fst).Nodup ∧
    (∀ e ∈ (p1Delete st m).to_del, e.2.1 = Task.Delete e.1) := by
  unfold p1Delete
  by_cases hf : m.is_file = true
  · rw [if_pos hf]
    refine ⟨h1, h2, ?_⟩
    intro e he
    rcases mem_alInsert he with heq | he2
    · rw [heq]
    · exact h3 e he2
  · rw [if_neg hf]
    by_cases hp : m.path ≠ []
    · rw [if_pos hp]
      refine ⟨h1, h2, ?_⟩
      intro e he
      rcases mem_alInsert he with heq | he2
      · rw [heq]
      · exact h3 e he2
    · rw [if_neg hp]
      exact ⟨h1, h2, h3⟩

theorem p1Step_shapes (st : P1State) (m : Node)
    (h1 : ∀ e ∈ st.to_move, ∃ t b, e.2 = (Task.Move e.1 t, b))
    (h2 : (st.to_move.map Prod.fst).Nodup)
    (h3 : ∀ e ∈ st.to_del, e.2.1 = Task.Delete e.1) :
    (∀ e ∈ (p1Step st m).to_move, ∃ t b, e.2 = (Task.Move e.1 t, b)) ∧
    ((p1Step st m).to_move.map Prod.fst).Nodup ∧
    (∀ e ∈ (p1Step st m).to_del, e.2.1 = Task.Delete e.1) := by
  rcases hg : alGet m.node_hash st.table with _ | ns
  · have e0 : p1Step st m = p1Delete st m := by unfold p1Step; rw [hg]
    rw [e0]
    exact p1Delete_shapes st m h1 h2 h3
  · rw [p1Step_eq_of_get hg]
    rcases hidx : List.findIdx? (fun n => decide (n.path = m.path)) ns with _ | idx
    · have e1 : p1Match st m ns = p1Pop st m ns := by unfold p1Match; rw [hidx]
      rw [e1]
      rcases hlast : ns.getLast? with _ | cand
      · have e2 : p1Pop st m ns = p1Delete st m := by unfold p1Pop; rw [hlast]
        rw [e2]
        exact p1Delete_shapes st m h1 h2 h3
      · have e2 : p1Pop st m ns =
            { st with
                table := alSet m.node_hash ns.dropLast st.table,
                to_move := alInsert m.path
                  (Task.Move m.path cand.path, m.is_file) st.to_move } := by
          unfold p1Pop; rw [hlast]
        rw [e2]
        refine ⟨?_, alInsert_keys_nodup h2, h3⟩
        intro e he
        rcases mem_alInsert he with heq | he2
        · rw [heq]; exact ⟨cand.path, m.is_file, rfl⟩
        · exact h1 e he2
    · rw [p1Match_eq_of_find hidx]
      exact ⟨h1, h2, h3⟩

theorem phase1_shapes : ∀ (L : List Node) (st : P1State),
    (∀ e ∈ st.to_move, ∃ t b, e.2 = (Task.Move e.1 t, b)) →
    ((st.to_move.map Prod.fst).Nodup) →
    (∀ e ∈ st.to_del, e.2.1 = Task.Delete e.1) →
    (∀ e ∈ (L.foldl p1Step st).to_move, ∃ t b, e.2 = (Task.Move e.1 t, b)) ∧
    ((L.foldl p1Step st).to_move.map Prod.fst).Nodup ∧
    (∀ e ∈ (L.foldl p1Step st).to_del, e.2.1 = Task.Delete e.1) := by
  intro L
  induction L with
  | nil => intro st h1 h2 h3; exact ⟨h1, h2, h3⟩
  | cons m rest ih =>
    intro st h1 h2 h3
    rw [List.foldl_cons]
    obtain ⟨g1, g2, g3⟩ := p1Step_shapes st m h1 h2 h3
    exact ih (p1Step st m) g1 g2 g3

theorem phase1_shapes_final (src dst : Node) :
    (∀ e ∈ (phase1 src dst).to_move, ∃ t b, e.2 = (Task.Move e.1 t, b)) ∧
    ((phase1 src dst).to_move.map Prod.fst).Nodup ∧
    (∀ e ∈ (phase1 src dst).to_del, e.2.1 = Task.Delete e.1) := by
  unfold phase1
  exact phase1_shapes dst.bfs _ (by intro e he; simp at he) (by simp)
    (by intro e he; simp at he)

theorem mem_move_from_paths {l : List Task} {pb : Path} :
    pb ∈ l.filterMap (fun t => match t with
      | Task.Move f _ => some f
      | _ => none) ↔ ∃ t2, Task.Move pb t2 ∈ l := by
  rw [List.mem_filterMap]
  constructor
  · rintro ⟨a, ha, hfa⟩
    cases a with
    | Move f t =>
      simp only [Option.some.injEq] at hfa
      exact ⟨t, hfa ▸ ha⟩
    | Upload p => simp at hfa
    | CreateDir p => simp at hfa
    | Delete p => simp at hfa
  · rintro ⟨t2, h⟩
    exact ⟨Task.Move pb t2, h, rfl⟩

theorem mem_move_to_paths {l : List Task} {pb : Path} :
    pb ∈ l.filterMap (fun t => match t with
      | Task.Move _ toP => some toP
      | _ => none) ↔ ∃ f2, Task.Move f2 pb ∈ l := by
  rw [List.mem_filterMap]
  constructor
  · rintro ⟨a, ha, hfa⟩
    cases a with
    | Move f t =>
      simp only [Option.some.injEq] at hfa
      exact ⟨f, hfa ▸ ha⟩
    | Upload p => simp at hfa
    | CreateDir p => simp at hfa
    | Delete p => simp at hfa
  · rintro ⟨f2, h⟩
    exact ⟨Task.Move f2 pb, h, rfl⟩

theorem mem_del_paths {l : List Task} {pb : Path} :
    pb ∈ l.filterMap (fun t => match t with
      | Task.Delete p => some p
      | _ => none) ↔ Task.Delete pb ∈ l := by
  rw [List.mem_filterMap]
  constructor
  · rintro ⟨a, ha, hfa⟩
    cases a with
    | Move f t => simp at hfa
    | Upload p => simp at hfa
    | CreateDir p => simp at hfa
    | Delete p =>
      simp only [Option.some.injEq] at hfa
      exact hfa ▸ ha
  · intro h
    exact ⟨Task.Delete pb, h, rfl⟩

theorem mem_dedup_move_intro {l : List Task} {f t : Path}
    (hmem : Task.Move f t ∈ l)
    (hf : ∀ pb t2, Task.Move pb t2 ∈ l → pathStartsWith f pb = true → f = pb)
    (ht : ∀ f2 pb, Task.Move f2 pb ∈ l → pathStartsWith t pb = true → t = pb) :
    Task.Move f t ∈ dedup_move_tasks l := by
  unfold dedup_move_tasks
  rw [List.mem_filter]
  refine ⟨hmem, ?_⟩
  have hA : (l.filterMap (fun t => match t with
      | Task.Move f _ => some f
      | _ => none)).any
        (fun pb => pathStartsWith f pb && decide (f ≠ pb)) = false := by
    cases hA2 : (l.filterMap (fun t => match t with
        | Task.Move f _ => some f
        | _ => none)).any
          (fun pb => pathStartsWith f pb && decide (f ≠ pb)) with
    | false => rfl
    | true =>
      exfalso
      obtain ⟨pb, hpb, hcond⟩ := List.any_eq_true.mp hA2
      rw [Bool.and_eq_true, decide_eq_true_eq] at hcond
      obtain ⟨t2, hmv⟩ := mem_move_from_paths.mp hpb
      exact hcond.2 (hf pb t2 hmv hcond.1)
  have hB : (l.filterMap (fun t => match t with
      | Task.Move _ toP => some toP
      | _ => none)).any
        (fun pb => pathStartsWith t pb && decide (t ≠ pb)) = false := by
    cases hB2 : (l.filterMap (fun t => match t with
        | Task.Move _ toP => some toP
        | _ => none)).any
          (fun pb => pathStartsWith t pb && decide (t ≠ pb)) with
    | false => rfl
    | true =>
      exfalso
      obtain ⟨pb, hpb, hcond⟩ := List.any_eq_true.mp hB2
      rw [Bool.and_eq_true, decide_eq_true_eq] at hcond
      obtain ⟨f2, hmv⟩ := mem_move_to_paths.mp hpb
      exact hcond.2 (ht f2 pb hmv hcond.1)
  simp only [hA, hB]
  simp

theorem mem_dedup_del_intro {l : List Task} {p : Path}
    (hmem : Task.Delete p ∈ l)
    (hp : ∀ pb, Task.Delete pb ∈ l → pathStartsWith p pb = true → p = pb) :
    Task.Delete p ∈ dedup_del_tasks l := by
  unfold dedup_del_tasks
  rw [List.mem_filter]
  refine ⟨hmem, ?_⟩
  have hA : (l.filterMap (fun t => match t with
      | Task.Delete p => some p
      | _ => none)).any
        (fun pb => pathStartsWith p pb && decide (p ≠ pb)) = false := by
    cases hA2 : (l.filterMap (fun t => match t with
        | Task.Delete p => some p
        | _ => none)).any
          (fun pb => pathStartsWith p pb && decide (p ≠ pb)) with
    | false => rfl
    | true =>
      exfalso
      obtain ⟨pb, hpb, hcond⟩ := List.any_eq_true.mp hA2
      rw [Bool.and_eq_true, decide_eq_true_eq] at hcond
      exact hcond.2 (hp pb (mem_del_paths.mp hpb) hcond.1)
  simp only [hA]
  simp

theorem dedup_move_no_nested {l : List Task} {f1 t1 f2 t2 : Path}
    (h1 : Task.Move f1 t1 ∈ dedup_move_tasks l)
    (h2 : Task.Move f2 t2 ∈ dedup_move_tasks l) :
    (pathStartsWith f2 f1 = true → f2 = f1) ∧
    (pathStartsWith t2 t1 = true → t2 = t1) := by
  have h1l : Task.Move f1 t1 ∈ l := mem_of_mem_dedup_move h1
  unfold dedup_move_tasks at h2
  rw [List.mem_filter] at h2
  obtain ⟨h2l, hpred⟩ := h2
  constructor
  · intro hs
    by_contra hne
    have hany : (l.filterMap (fun t => match t with
        | Task.Move f _ => some f
        | _ => none)).any
          (fun pb => pathStartsWith f2 pb && decide (f2 ≠ pb)) = true := by
      rw [List.any_eq_true]
      refine ⟨f1, mem_move_from_paths.mpr ⟨t1, h1l⟩, ?_⟩
      rw [Bool.and_eq_true, decide_eq_true_eq]
      exact ⟨hs, hne⟩
    simp only [hany] at hpred
    simp at hpred
  · intro hs
    by_contra hne
    have hany : (l.filterMap (fun t => match t with
        | Task.Move _ toP => some toP
        | _ => none)).any
          (fun pb => pathStartsWith t2 pb && decide (t2 ≠ pb)) = true := by
      rw [List.any_eq_true]
      refine ⟨t1, mem_move_to_paths.mpr ⟨f1, h1l⟩, ?_⟩
      rw [Bool.and_eq_true, decide_eq_true_eq]
      exact ⟨hs, hne⟩
    simp only [hany] at hpred
    simp at hpred

theorem countP_keys_le_one {l : List (Path × (Task × Bool))} {p : Path}
    (h : (l.map Prod.fst).Nodup) :
    l.countP (fun e => decide (e.1 = p)) ≤ 1 := by
  induction l with
  | nil => simp
  | cons e rest ih =>
    simp only [List.map_cons, List.nodup_cons] at h
    obtain ⟨hnot, hrest⟩ := h
    by_cases he : e.1 = p
    · have hzero : rest.countP (fun e => decide (e.1 = p)) = 0 := by
        rw [List.countP_eq_zero]
        intro a ha hcontra
        rw [decide_eq_true_eq] at hcontra
        exact hnot (by rw [he, ← hcontra]; exact List.mem_map.mpr ⟨a, ha, rfl⟩)
      rw [List.countP_cons_of_pos
        (fun e : Path × (Task × Bool) => decide (e.1 = p)) rest
        (by simpa using he)]
      omega
    · rw [List.countP_cons_of_neg
        (fun e : Path × (Task × Bool) => decide (e.1 = p)) rest
        (by simpa using he)]
      exact ih hrest

theorem p2_fold_to_del_keys :
    ∀ (L : List Node) (s : P2State), delShape s →
    ∀ k2 ∈ (L.foldl p2Step s).to_del.map Prod.fst,
      k2 ∈ s.to_del.map Prod.fst := by
  intro L
  induction L with
  | nil => intro s _ k2 hk; exact hk
  | cons n rest ih =>
    intro s hdel k2 hk
    rw [List.foldl_cons] at hk
    exact p2Step_to_del_keys n hdel k2
      (ih (p2Step s n) (delShape_p2Step n hdel) k2 hk)

theorem p2_fold_origin_to :
    ∀ (L : List Node) (s : P2State), delShape s →
    ∀ e2 ∈ (L.foldl p2Step s).to_move, ∀ f2 t2 b2,
      e2.2 = (Task.Move f2 t2, b2) →
      ∃ e ∈ s.to_move, ∃ f3, e.2 = (Task.Move f3 t2, b2) := by
  intro L s hdel e2 he2 f2 t2 b2 hsh
  obtain ⟨e, he, _, hrel⟩ := p2_fold_origin L s hdel e2 he2
  rcases hrel with hrel | ⟨f, f4, t, bb, hshE, hshE2⟩
  · exact ⟨e, he, f2, by rw [← hrel]; exact hsh⟩
  · rw [hsh] at hshE2
    simp only [Prod.mk.injEq, Task.Move.injEq] at hshE2
    obtain ⟨⟨hf4, ht⟩, hbb⟩ := hshE2
    exact ⟨e, he, f, by rw [hshE, ← ht, ← hbb]⟩

/-- C5 counterexample: the unconditional claim — an intact relocated
destination subtree always yields exactly one `Move` from its root — is
false.  Both well-formed destination subtrees `a` (identical to source
`s`) and `b` (identical to source `s/x`) are relocated intact, but the
whole emitted plan contains a single move, `Move{a → s}`: the pending
`Move{b → s/x}` is itself dropped by `dedup_move_tasks` because its
target `s/x` lies strictly under the other move's target `s`, so zero
`Move` tasks have the subtree root `b` as their `from`. -/
theorem C5_collapsed_sibling_counterexample :
    srcCollapse.wfB = true ∧ dstCollapse.wfB = true ∧
    (∃ nb ∈ dstCollapse.bfs, nb.path = ["b"] ∧
      ∃ ns ∈ srcCollapse.bfs, ns.path = ["s", "x"] ∧
        nb.node_hash = ns.node_hash) ∧
    build_task_queue srcCollapse dstCollapse =
      [[], [], [], [Task.Move (["a"]) (["s"])], [],
       [Task.Delete (["a", "x"])]] := by
  decide

/-- C5 (amended): the "exactly one Move from the subtree root" part holds
only conditionally, because the subtree-root move itself can be erased by
deduplication (see the counterexample).  Given that the root `Move` from
`p` to `q` does survive into Q3, and `p` is an ordinary path (its first
component without the reserved ".crustasync-" prefix that rescue temp
`from`s wear under the counter model of `Uuid::new_v4`), Q3 holds exactly
one `Move` whose `from` is `p`.  The descendant-suppression part is
unconditional in shape: no Q3 `Move` has a `from` strictly below `p` or a
`to` strictly below `q`, and within Q0 no rescue `Move` is nested
strictly below another's `from` or `to` — `dedup_move_tasks` suppresses
every nested move. -/
theorem C5_move_collapse (src_tree dst_tree : Node) (p q : Path)
    (hmem : Task.Move p q ∈ (build_task_queue src_tree dst_tree).getD 3 [])
    (hpres : headNonReservedB p = true) :
    ((build_task_queue src_tree dst_tree).getD 3 []).countP
      (fun t => match t with
        | Task.Move f _ => decide (f = p)
        | _ => false) = 1 ∧
    (∀ f2 t2,
      Task.Move f2 t2 ∈ (build_task_queue src_tree dst_tree).getD 3 [] →
      (pathStartsWith f2 p = true → f2 = p) ∧
      (pathStartsWith t2 q = true → t2 = q)) ∧
    (∀ f1 t1 f2 t2,
      Task.Move f1 t1 ∈ (build_task_queue src_tree dst_tree).getD 0 [] →
      Task.Move f2 t2 ∈ (build_task_queue src_tree dst_tree).getD 0 [] →
      (pathStartsWith f2 f1 = true → f2 = f1) ∧
      (pathStartsWith t2 t1 = true → t2 = t1)) := by
  obtain ⟨hshape1, hnodup1, hdel1⟩ := phase1_shapes_final src_tree dst_tree
  have hmem3 : Task.Move p q ∈
      q3Final (phase2 (phase1 src_tree dst_tree)) := hmem
  obtain ⟨hdel2, hmv2, hq0c2, hkeys2⟩ := p2_fold_basic
    ((phase1 src_tree dst_tree).to_move.map Prod.fst)
    ((phase1 src_tree dst_tree).table.flatMap (fun pr => pr.2))
    { to_move := (phase1 src_tree dst_tree).to_move,
      to_del := (phase1 src_tree dst_tree).to_del,
      queue_0 := [], queue_1 := [], queue_2 := [], queue_4 := [], ctr := 0 }
    hdel1
    (fun e he => by
      obtain ⟨t2, b2, hsh⟩ := hshape1 e he
      exact ⟨e.1, t2, b2, hsh, Or.inl rfl⟩)
    (fun t ht => by simp at ht)
    rfl
  have hfold : phase2 (phase1 src_tree dst_tree) =
      ((phase1 src_tree dst_tree).table.flatMap (fun pr => pr.2)).foldl p2Step
        { to_move := (phase1 src_tree dst_tree).to_move,
          to_del := (phase1 src_tree dst_tree).to_del,
          queue_0 := [], queue_1 := [], queue_2 := [], queue_4 := [],
          ctr := 0 } := rfl
  rw [← hfold] at hdel2 hmv2 hq0c2 hkeys2
  refine ⟨?_, ?_, ?_⟩
  · have hlow : 0 < (q3Final (phase2 (phase1 src_tree dst_tree))).countP
        (fun t => match t with
          | Task.Move f _ => decide (f = p)
          | _ => false) := by
      rw [List.countP_pos_iff]
      exact ⟨Task.Move p q, hmem3, by simp⟩
    have hstep1 : (q3Final (phase2 (phase1 src_tree dst_tree))).countP
        (fun t => match t with
          | Task.Move f _ => decide (f = p)
          | _ => false) ≤
        ((phase2 (phase1 src_tree dst_tree)).to_move.map
          (fun e => e.2.1)).countP
          (fun t => match t with
            | Task.Move f _ => decide (f = p)
            | _ => false) := by
      unfold q3Final dedup_move_tasks
      rw [List.countP_filter]
      exact List.countP_mono_left (fun a ha hpa => by
        rw [Bool.and_eq_true] at hpa
        exact hpa.1)
    have hstep2 : ((phase2 (phase1 src_tree dst_tree)).to_move.map
        (fun e => e.2.1)).countP
        (fun t => match t with
          | Task.Move f _ => decide (f = p)
          | _ => false) ≤
        (phase2 (phase1 src_tree dst_tree)).to_move.countP
          (fun e => decide (e.1 = p)) := by
      rw [List.countP_map]
      apply List.countP_mono_left
      intro e he hpe
      obtain ⟨f3, t3, b3, hsh3, hor3⟩ := hmv2 e he
      have h21 : e.2.1 = Task.Move f3 t3 := by rw [hsh3]
      simp only [Function.comp_apply, h21] at hpe
      rw [decide_eq_true_eq] at hpe
      rcases hor3 with hkey | ⟨c4, htemp⟩
      · rw [decide_eq_true_eq, ← hkey]; exact hpe
      · exfalso
        rw [htemp] at hpe
        rw [← hpe] at hpres
        rw [headNonReservedB_temp_cons c4 []] at hpres
        exact Bool.noConfusion hpres
    have hnodup2 : ((phase2 (phase1 src_tree dst_tree)).to_move.map
        Prod.fst).Nodup := by
      rw [hkeys2]; exact hnodup1
    have hstep3 : (phase2 (phase1 src_tree dst_tree)).to_move.countP
        (fun e => decide (e.1 = p)) ≤ 1 := countP_keys_le_one hnodup2
    show (q3Final (phase2 (phase1 src_tree dst_tree))).countP
      (fun t => match t with
        | Task.Move f _ => decide (f = p)
        | _ => false) = 1
    omega
  · intro f2 t2 h
    exact dedup_move_no_nested hmem3 h
  · intro f1 t1 f2 t2 h1 h2
    exact dedup_move_no_nested h1 h2

/-- Witness for C5 at the intact-subtree relocation fixture: the subtree
at destination path `d` moves to `t`, the emitted Q3 move is unique. -/
theorem C5_move_collapse_witness :
    (Task.Move (["d"]) (["t"]) ∈
        (build_task_queue srcMove dstMove).getD 3 [] ∧
     headNonReservedB (["d"]) = true) ∧
    ((build_task_queue srcMove dstMove).getD 3 []).countP
      (fun t => match t with
        | Task.Move f _ => decide (f = ["d"])
        | _ => false) = 1 ∧
    (∀ f2 t2,
      Task.Move f2 t2 ∈ (build_task_queue srcMove dstMove).getD 3 [] →
      (pathStartsWith f2 (["d"]) = true → f2 = ["d"]) ∧
      (pathStartsWith t2 (["t"]) = true → t2 = ["t"])) ∧
    (∀ f1 t1 f2 t2,
      Task.Move f1 t1 ∈ (build_task_queue srcMove dstMove).getD 0 [] →
      Task.Move f2 t2 ∈ (build_task_queue srcMove dstMove).getD 0 [] →
      (pathStartsWith f2 f1 = true → f2 = f1) ∧
      (pathStartsWith t2 t1 = true → t2 = t1)) :=
  ⟨⟨by decide, by decide⟩,
   C5_move_collapse srcMove dstMove ["d"] ["t"] (by decide) (by decide)⟩

/-- C10 counterexample: in the orphaned-rescue scenario, Q0 relocates
`d/x` to the root-level temp path `.crustasync-0`, yet no `Move` in the
final Q3 batch has that temp path as its `from`: the deferred move
`Move{.crustasync-0 → s/x}` was dropped by `dedup_move_tasks` because its
target `s/x` sits strictly under the target `s` of another pending move,
so the claim's "the corresponding deferred Move in Q3 uses exactly that
root-level temp path as its `from`" fails and the temp file is orphaned. -/
theorem C10_orphaned_temp_counterexample :
    (build_task_queue srcOrphan dstOrphan).getD 0 [] =
      [Task.Move (["d", "x"]) ([".crustasync-0"])] ∧
    ((build_task_queue srcOrphan dstOrphan).getD 3 []).all
      (fun t => match t with
        | Task.Move f _ => decide (f ≠ [".crustasync-0"])
        | _ => true) = true := by
  decide

/-- C10 (amended): every rescue `Move` emitted into Q0 has as destination
a single-component root-level temp path `[".crustasync-" ++ counter]`
(never a sibling or nested location), and — provided no pending-move key
wears the reserved ".crustasync-" shape (`hres`) and no pending-move key
lies under more than one leftover source file (`hcnt`; automatic for a
well-formed source, where files have no descendants) — the pending-move
table after the second loop still holds a deferred move whose `from` is
exactly that temp path.  The deduplicated Q3 batch, however, may drop that
deferred move, as the counterexample shows, so the claim is asserted of
the pre-deduplication pending moves only. -/
theorem C10_rescue_temp_shape (src_tree dst_tree : Node)
    (hres : ∀ k ∈ (phase1 src_tree dst_tree).to_move.map Prod.fst,
      headNonReservedB k = true)
    (hcnt : ∀ k ∈ (phase1 src_tree dst_tree).to_move.map Prod.fst,
      ((phase1 src_tree dst_tree).table.flatMap (fun pr => pr.2)).countP
        (fun c => c.is_file && pathStartsWith k c.path) ≤ 1) :
    ∀ f t, Task.Move f t ∈ (build_task_queue src_tree dst_tree).getD 0 [] →
      (∃ c, t = [tempName c]) ∧
      (∃ t2, Task.Move t t2 ∈
        (phase2 (phase1 src_tree dst_tree)).to_move.map
          (fun e => e.2.1)) := by
  obtain ⟨hshape1, hnodup1, hdel1⟩ := phase1_shapes_final src_tree dst_tree
  obtain ⟨hdel2, hmv2, hq0c2, hkeys2⟩ := p2_fold_basic
    ((phase1 src_tree dst_tree).to_move.map Prod.fst)
    ((phase1 src_tree dst_tree).table.flatMap (fun pr => pr.2))
    { to_move := (phase1 src_tree dst_tree).to_move,
      to_del := (phase1 src_tree dst_tree).to_del,
      queue_0 := [], queue_1 := [], queue_2 := [], queue_4 := [], ctr := 0 }
    hdel1
    (fun e he => by
      obtain ⟨t2, b2, hsh⟩ := hshape1 e he
      exact ⟨e.1, t2, b2, hsh, Or.inl rfl⟩)
    (fun t ht => by simp at ht)
    rfl
  have hcons := p2_fold_consume
    ((phase1 src_tree dst_tree).to_move.map Prod.fst)
    ((phase1 src_tree dst_tree).table.flatMap (fun pr => pr.2))
    hres hcnt
    ((phase1 src_tree dst_tree).table.flatMap (fun pr => pr.2)) []
    { to_move := (phase1 src_tree dst_tree).to_move,
      to_del := (phase1 src_tree dst_tree).to_del,
      queue_0 := [], queue_1 := [], queue_2 := [], queue_4 := [], ctr := 0 }
    (by simp)
    hdel1
    (fun e he => by
      obtain ⟨t2, b2, hsh⟩ := hshape1 e he
      exact ⟨e.1, t2, b2, hsh, Or.inl rfl⟩)
    rfl
    (fun t ht => by simp at ht)
    (fun f t ht => by simp at ht)
    (fun e he f t b hsh hne => by
      obtain ⟨t2, b2, hsh2⟩ := hshape1 e he
      rw [hsh2] at hsh
      simp only [Prod.mk.injEq, Task.Move.injEq] at hsh
      exact absurd hsh.1.1.symm hne)
  intro f t hmem0
  have hmem0b : Task.Move f t ∈
      dedup_move_tasks (phase2 (phase1 src_tree dst_tree)).queue_0 := hmem0
  have hmemq0 := mem_of_mem_dedup_move hmem0b
  have hfold : phase2 (phase1 src_tree dst_tree) =
      ((phase1 src_tree dst_tree).table.flatMap (fun pr => pr.2)).foldl p2Step
        { to_move := (phase1 src_tree dst_tree).to_move,
          to_del := (phase1 src_tree dst_tree).to_del,
          queue_0 := [], queue_1 := [], queue_2 := [], queue_4 := [],
          ctr := 0 } := rfl
  rw [← hfold] at hdel2 hmv2 hq0c2 hkeys2 hcons
  constructor
  · obtain ⟨f2, c2, heq, _⟩ := hq0c2 _ hmemq0
    simp only [Task.Move.injEq] at heq
    exact ⟨c2, heq.2⟩
  · obtain ⟨e, he, t2, b, hsh⟩ := hcons f t hmemq0
    refine ⟨t2, List.mem_map.mpr ⟨e, he, ?_⟩⟩
    rw [hsh]

/-- Witness for C10 at the minimal rescue fixture: the single Q0 move
targets `.crustasync-0` at the root, and the pending-move table holds the
deferred move from that temp path. -/
theorem C10_rescue_temp_shape_witness :
    (∃ c, [".crustasync-0"] = [tempName c]) ∧
    (∃ t2, Task.Move ([".crustasync-0"]) t2 ∈
      (phase2 (phase1 srcMini dstMini)).to_move.map (fun e => e.2.1)) :=
  C10_rescue_temp_shape srcMini dstMini (by decide) (by decide)
    ["d", "x"] [".crustasync-0"] (by decide)

/-- C2 counterexample: in the rescue-plus-interference scenario the rescue
premise holds — Q0 relocates `d/x0` to a temp path, Q1 deletes `d`, and Q3
carries the deferred move from the temp path — yet the batches, applied in
order, do reference a path that no longer exists: Q3's `Move{z/a → s}`
vacates `z/a`, after which Q5's `Delete{z/a/x}` targets a gone path, so
the conceptual batch application reports a dangling reference. -/
theorem C2_stale_reference_counterexample :
    (build_task_queue srcC2 dstC2).getD 0 [] =
      [Task.Move (["d", "x0"]) ([".crustasync-0"])] ∧
    (build_task_queue srcC2 dstC2).getD 1 [] = [Task.Delete (["d"])] ∧
    Task.Move ([".crustasync-0"]) (["y2"]) ∈
      (build_task_queue srcC2 dstC2).getD 3 [] ∧
    (applyBatches srcC2 (flatten dstC2)
      (build_task_queue srcC2 dstC2)).2 = false := by
  decide

set_option maxHeartbeats 1000000 in
/-- C2 (amended): the structural rescue guarantees hold.  For a pending
move of `X` (key `k`) nested under a doomed directory `D` (path `P`,
recorded as a pending directory delete) that the leftover source file
`newD` at `P` converts, and under non-interference side conditions (no
other candidate consumes `P` or rescues `k`; pending-move keys avoid the
reserved temp shape, are non-empty, and none lies strictly above `k`; no
pending-move target lies strictly above `target`; no pending-delete path
lies strictly above `P`), `build_task_queue` emits `Move{k → temp}` in Q0
and `Delete{P}` in Q1 — Q0 runs before Q1, so `X` is relocated before `D`
is deleted — and the deferred `Move{temp → target}` survives into Q3.
The claim's final conjunct (no batch ever references a vanished path) is
false, as the counterexample shows, and is therefore dropped here. -/
theorem C2_rescue_amended (src_tree dst_tree : Node) (k P target : Path)
    (b : Bool) (done0 rest0 : List Node) (newD : Node)
    (hk : (k, (Task.Move k target, b)) ∈ (phase1 src_tree dst_tree).to_move)
    (hP : alGet P (phase1 src_tree dst_tree).to_del =
      some (Task.Delete P, false))
    (hkP : pathStartsWith k P = true)
    (hsplit : (phase1 src_tree dst_tree).table.flatMap (fun pr => pr.2) =
      done0 ++ newD :: rest0)
    (hnewf : newD.is_file = true)
    (hnewp : newD.path = P)
    (hdone : ∀ c ∈ done0, c.path ≠ P)
    (hnok : ∀ c ∈ done0 ++ rest0,
      (c.is_file && pathStartsWith k c.path) = false)
    (hres : ∀ k2 ∈ (phase1 src_tree dst_tree).to_move.map Prod.fst,
      headNonReservedB k2 = true)
    (h5 : ∀ k2 ∈ (phase1 src_tree dst_tree).to_move.map Prod.fst,
      pathStartsWith k k2 = true → k2 = k)
    (h6 : ∀ k2 ∈ (phase1 src_tree dst_tree).to_move.map Prod.fst, k2 ≠ [])
    (h7 : ∀ e ∈ (phase1 src_tree dst_tree).to_move,
      (match e.2.1 with
       | Task.Move _ t2 => !(pathStartsWith target t2) || decide (target = t2)
       | _ => true) = true)
    (hq1 : ∀ p2 ∈ (phase1 src_tree dst_tree).to_del.map Prod.fst,
      pathStartsWith P p2 = true → P = p2) :
    ∃ c, Task.Move k [tempName c] ∈
        (build_task_queue src_tree dst_tree).getD 0 [] ∧
      Task.Delete P ∈ (build_task_queue src_tree dst_tree).getD 1 [] ∧
      Task.Move [tempName c] target ∈
        (build_task_queue src_tree dst_tree).getD 3 [] := by
  obtain ⟨hshape1, hnodup1, hdel1⟩ := phase1_shapes_final src_tree dst_tree
  have hdel0 : delShape { to_move := (phase1 src_tree dst_tree).to_move, to_del := (phase1 src_tree dst_tree).to_del, queue_0 := [], queue_1 := [], queue_2 := [], queue_4 := [], ctr := 0 } := hdel1
  have hmv0 : mvShape { to_move := (phase1 src_tree dst_tree).to_move, to_del := (phase1 src_tree dst_tree).to_del, queue_0 := [], queue_1 := [], queue_2 := [], queue_4 := [], ctr := 0 } := fun e he => by
    obtain ⟨t2, b2, hsh⟩ := hshape1 e he
    exact ⟨e.1, t2, b2, hsh, Or.inl rfl⟩
  have hq00 : q0Shape ((phase1 src_tree dst_tree).to_move.map Prod.fst)
      { to_move := (phase1 src_tree dst_tree).to_move, to_del := (phase1 src_tree dst_tree).to_del, queue_0 := [], queue_1 := [], queue_2 := [], queue_4 := [], ctr := 0 } := fun t ht => by simp at ht
  obtain ⟨hdelA, hmvA, hq0A, hkeysA⟩ := p2_fold_basic
    ((phase1 src_tree dst_tree).to_move.map Prod.fst) done0 { to_move := (phase1 src_tree dst_tree).to_move, to_del := (phase1 src_tree dst_tree).to_del, queue_0 := [], queue_1 := [], queue_2 := [], queue_4 := [], ctr := 0 }
    hdel0 hmv0 hq00 rfl
  have hkA : (k, (Task.Move k target, b)) ∈ (done0.foldl p2Step { to_move := (phase1 src_tree dst_tree).to_move, to_del := (phase1 src_tree dst_tree).to_del, queue_0 := [], queue_1 := [], queue_2 := [], queue_4 := [], ctr := 0 }).to_move :=
    p2_fold_preserve_entry done0 { to_move := (phase1 src_tree dst_tree).to_move, to_del := (phase1 src_tree dst_tree).to_del, queue_0 := [], queue_1 := [], queue_2 := [], queue_4 := [], ctr := 0 } k (Task.Move k target, b) hdel0 hk
      (fun c hc => hnok c (List.mem_append.mpr (Or.inl hc)))
  have hPA : alGet P (done0.foldl p2Step { to_move := (phase1 src_tree dst_tree).to_move, to_del := (phase1 src_tree dst_tree).to_del, queue_0 := [], queue_1 := [], queue_2 := [], queue_4 := [], ctr := 0 }).to_del = some (Task.Delete P, false) := by
    rw [p2_fold_todel_get done0 { to_move := (phase1 src_tree dst_tree).to_move, to_del := (phase1 src_tree dst_tree).to_del, queue_0 := [], queue_1 := [], queue_2 := [], queue_4 := [], ctr := 0 } P hdel0 hdone]
    exact hP
  obtain ⟨c0, hmB, hq0B, hq1B⟩ := p2Step_rescue hnewf
    (by rw [hnewp]; exact hPA) hkA (by rw [hnewp]; exact hkP)
  have hdelB : delShape (p2Step (done0.foldl p2Step { to_move := (phase1 src_tree dst_tree).to_move, to_del := (phase1 src_tree dst_tree).to_del, queue_0 := [], queue_1 := [], queue_2 := [], queue_4 := [], ctr := 0 }) newD) := delShape_p2Step newD hdelA
  have hmvB : mvShape (p2Step (done0.foldl p2Step { to_move := (phase1 src_tree dst_tree).to_move, to_del := (phase1 src_tree dst_tree).to_del, queue_0 := [], queue_1 := [], queue_2 := [], queue_4 := [], ctr := 0 }) newD) := mvShape_p2Step newD hdelA hmvA
  have hkeysB : (p2Step (done0.foldl p2Step { to_move := (phase1 src_tree dst_tree).to_move, to_del := (phase1 src_tree dst_tree).to_del, queue_0 := [], queue_1 := [], queue_2 := [], queue_4 := [], ctr := 0 }) newD).to_move.map Prod.fst =
      (phase1 src_tree dst_tree).to_move.map Prod.fst := by
    rw [p2Step_to_move_keys newD hdelA]; exact hkeysA
  have hq0Bs : q0Shape ((phase1 src_tree dst_tree).to_move.map Prod.fst)
      (p2Step (done0.foldl p2Step { to_move := (phase1 src_tree dst_tree).to_move, to_del := (phase1 src_tree dst_tree).to_del, queue_0 := [], queue_1 := [], queue_2 := [], queue_4 := [], ctr := 0 }) newD) := q0Shape_p2Step newD hdelA hmvA hkeysA hq0A
  obtain ⟨hdelC, hmvC, hq0C, hkeysC⟩ := p2_fold_basic
    ((phase1 src_tree dst_tree).to_move.map Prod.fst) rest0 (p2Step (done0.foldl p2Step { to_move := (phase1 src_tree dst_tree).to_move, to_del := (phase1 src_tree dst_tree).to_del, queue_0 := [], queue_1 := [], queue_2 := [], queue_4 := [], ctr := 0 }) newD)
    hdelB hmvB hq0Bs hkeysB
  have hmC : (k, (Task.Move [tempName c0] target, b)) ∈ (rest0.foldl p2Step (p2Step (done0.foldl p2Step { to_move := (phase1 src_tree dst_tree).to_move, to_del := (phase1 src_tree dst_tree).to_del, queue_0 := [], queue_1 := [], queue_2 := [], queue_4 := [], ctr := 0 }) newD)).to_move :=
    p2_fold_preserve_entry rest0 (p2Step (done0.foldl p2Step { to_move := (phase1 src_tree dst_tree).to_move, to_del := (phase1 src_tree dst_tree).to_del, queue_0 := [], queue_1 := [], queue_2 := [], queue_4 := [], ctr := 0 }) newD) k (Task.Move [tempName c0] target, b)
      hdelB hmB (fun c hc => hnok c (List.mem_append.mpr (Or.inr hc)))
  have hq0C2 : Task.Move k [tempName c0] ∈ (rest0.foldl p2Step (p2Step (done0.foldl p2Step { to_move := (phase1 src_tree dst_tree).to_move, to_del := (phase1 src_tree dst_tree).to_del, queue_0 := [], queue_1 := [], queue_2 := [], queue_4 := [], ctr := 0 }) newD)).queue_0 :=
    p2_fold_queue0_mono rest0 (p2Step (done0.foldl p2Step { to_move := (phase1 src_tree dst_tree).to_move, to_del := (phase1 src_tree dst_tree).to_del, queue_0 := [], queue_1 := [], queue_2 := [], queue_4 := [], ctr := 0 }) newD) hdelB _ hq0B
  have hq1C : Task.Delete P ∈ (rest0.foldl p2Step (p2Step (done0.foldl p2Step { to_move := (phase1 src_tree dst_tree).to_move, to_del := (phase1 src_tree dst_tree).to_del, queue_0 := [], queue_1 := [], queue_2 := [], queue_4 := [], ctr := 0 }) newD)).queue_1 := by
    have hmono := p2_fold_queue1_mono rest0 (p2Step (done0.foldl p2Step { to_move := (phase1 src_tree dst_tree).to_move, to_del := (phase1 src_tree dst_tree).to_del, queue_0 := [], queue_1 := [], queue_2 := [], queue_4 := [], ctr := 0 }) newD) hdelB _ hq1B
    rw [hnewp] at hmono
    exact hmono
  have hphaseC : phase2 (phase1 src_tree dst_tree) = (rest0.foldl p2Step (p2Step (done0.foldl p2Step { to_move := (phase1 src_tree dst_tree).to_move, to_del := (phase1 src_tree dst_tree).to_del, queue_0 := [], queue_1 := [], queue_2 := [], queue_4 := [], ctr := 0 }) newD)) := by
    show ((phase1 src_tree dst_tree).table.flatMap (fun pr => pr.2)).foldl
        p2Step { to_move := (phase1 src_tree dst_tree).to_move, to_del := (phase1 src_tree dst_tree).to_del, queue_0 := [], queue_1 := [], queue_2 := [], queue_4 := [], ctr := 0 } = (rest0.foldl p2Step (p2Step (done0.foldl p2Step { to_move := (phase1 src_tree dst_tree).to_move, to_del := (phase1 src_tree dst_tree).to_del, queue_0 := [], queue_1 := [], queue_2 := [], queue_4 := [], ctr := 0 }) newD))
    rw [hsplit, List.foldl_append, List.foldl_cons]
  have hkkeys : k ∈ (phase1 src_tree dst_tree).to_move.map Prod.fst :=
    List.mem_map.mpr ⟨(k, (Task.Move k target, b)), hk, rfl⟩
  have hsurv0 : Task.Move k [tempName c0] ∈
      dedup_move_tasks (rest0.foldl p2Step (p2Step (done0.foldl p2Step { to_move := (phase1 src_tree dst_tree).to_move, to_del := (phase1 src_tree dst_tree).to_del, queue_0 := [], queue_1 := [], queue_2 := [], queue_4 := [], ctr := 0 }) newD)).queue_0 := by
    apply mem_dedup_move_intro hq0C2
    · intro pb t2 hpb hstart
      obtain ⟨f3, c3, heq3, hor3⟩ := hq0C _ hpb
      simp only [Task.Move.injEq] at heq3
      obtain ⟨hf3, ht3⟩ := heq3
      rcases hor3 with hkey | ⟨c4, htemp⟩
      · have hpbk : pb ∈ (phase1 src_tree dst_tree).to_move.map Prod.fst := by
          rw [hf3]; exact hkey
        exact (h5 pb hpbk hstart).symm
      · exfalso
        have hnr := hres k hkkeys
        rw [hf3, htemp] at hstart
        rw [not_startsWith_temp hnr] at hstart
        exact Bool.noConfusion hstart
    · intro f2 pb hpb hstart
      obtain ⟨f3, c3, heq3, _⟩ := hq0C _ hpb
      simp only [Task.Move.injEq] at heq3
      obtain ⟨hf3, ht3⟩ := heq3
      rcases startsWith_singleton hstart with hnil | heqq
      · rw [hnil] at ht3
        simp at ht3
      · exact heqq.symm
  have hsurv1 : Task.Delete P ∈ dedup_del_tasks (rest0.foldl p2Step (p2Step (done0.foldl p2Step { to_move := (phase1 src_tree dst_tree).to_move, to_del := (phase1 src_tree dst_tree).to_del, queue_0 := [], queue_1 := [], queue_2 := [], queue_4 := [], ctr := 0 }) newD)).queue_1 := by
    apply mem_dedup_del_intro hq1C
    intro pb hpb hstart
    rcases p2_fold_queue1_mem rest0 (p2Step (done0.foldl p2Step { to_move := (phase1 src_tree dst_tree).to_move, to_del := (phase1 src_tree dst_tree).to_del, queue_0 := [], queue_1 := [], queue_2 := [], queue_4 := [], ctr := 0 }) newD) hdelB _ hpb with
      h1 | ⟨p2, hp2keys, hteq⟩
    · rcases p2Step_queue1_mem hdelA h1 with h2 | ⟨hteq, _⟩
      · rcases p2_fold_queue1_mem done0 { to_move := (phase1 src_tree dst_tree).to_move, to_del := (phase1 src_tree dst_tree).to_del, queue_0 := [], queue_1 := [], queue_2 := [], queue_4 := [], ctr := 0 } hdel0 _ h2 with
          h3 | ⟨p2, hp2keys, hteq⟩
        · simp at h3
        · simp only [Task.Delete.injEq] at hteq
          exact hq1 pb (by rw [hteq]; exact hp2keys) hstart
      · simp only [Task.Delete.injEq] at hteq
        rw [hteq, hnewp]
    · simp only [Task.Delete.injEq] at hteq
      have hp2A := p2Step_to_del_keys newD hdelA p2 hp2keys
      have hp2zero := p2_fold_to_del_keys done0 { to_move := (phase1 src_tree dst_tree).to_move, to_del := (phase1 src_tree dst_tree).to_del, queue_0 := [], queue_1 := [], queue_2 := [], queue_4 := [], ctr := 0 } hdel0 p2 hp2A
      exact hq1 pb (by rw [hteq]; exact hp2zero) hstart
  have hpre3 : Task.Move [tempName c0] target ∈
      (rest0.foldl p2Step (p2Step (done0.foldl p2Step { to_move := (phase1 src_tree dst_tree).to_move, to_del := (phase1 src_tree dst_tree).to_del, queue_0 := [], queue_1 := [], queue_2 := [], queue_4 := [], ctr := 0 }) newD)).to_move.map (fun e => e.2.1) :=
    List.mem_map.mpr ⟨(k, (Task.Move [tempName c0] target, b)), hmC, rfl⟩
  have hsurv3 : Task.Move [tempName c0] target ∈
      dedup_move_tasks ((rest0.foldl p2Step (p2Step (done0.foldl p2Step { to_move := (phase1 src_tree dst_tree).to_move, to_del := (phase1 src_tree dst_tree).to_del, queue_0 := [], queue_1 := [], queue_2 := [], queue_4 := [], ctr := 0 }) newD)).to_move.map (fun e => e.2.1)) := by
    apply mem_dedup_move_intro hpre3
    · intro pb t2 hpb hstart
      rcases startsWith_singleton hstart with hnil | heqq
      · exfalso
        obtain ⟨e, he, h21⟩ := List.mem_map.mp hpb
        obtain ⟨f3, t3, b3, hsh3, hor3⟩ := hmvC e he
        have h21c : e.2.1 = Task.Move f3 t3 := by rw [hsh3]
        rw [h21c] at h21
        simp only [Task.Move.injEq] at h21
        obtain ⟨hf3, ht3⟩ := h21
        rcases hor3 with hkey | ⟨c4, htemp⟩
        · have hek : e.1 ∈
              (phase1 src_tree dst_tree).to_move.map Prod.fst := by
            rw [← hkeysC]
            exact List.mem_map.mpr ⟨e, he, rfl⟩
          apply h6 e.1 hek
          rw [← hkey, hf3, hnil]
        · rw [htemp] at hf3
          rw [← hf3] at hnil
          simp at hnil
      · exact heqq.symm
    · intro f2 pb hpb hstart
      obtain ⟨e, he, h21⟩ := List.mem_map.mp hpb
      obtain ⟨f3, t3, b3, hsh3, _⟩ := hmvC e he
      have h21c : e.2.1 = Task.Move f3 t3 := by rw [hsh3]
      rw [h21c] at h21
      simp only [Task.Move.injEq] at h21
      obtain ⟨hf3, ht3⟩ := h21
      obtain ⟨eB, heB, fB, hshB⟩ :=
        p2_fold_origin_to rest0 (p2Step (done0.foldl p2Step { to_move := (phase1 src_tree dst_tree).to_move, to_del := (phase1 src_tree dst_tree).to_del, queue_0 := [], queue_1 := [], queue_2 := [], queue_4 := [], ctr := 0 }) newD) hdelB e he f3 t3 b3 hsh3
      obtain ⟨eA, heA, fA, hshA⟩ :=
        p2_fold_origin_to [newD] (done0.foldl p2Step { to_move := (phase1 src_tree dst_tree).to_move, to_del := (phase1 src_tree dst_tree).to_del, queue_0 := [], queue_1 := [], queue_2 := [], queue_4 := [], ctr := 0 }) hdelA eB heB fB t3 b3 hshB
      obtain ⟨e0, he0, f0, hsh0⟩ :=
        p2_fold_origin_to done0 { to_move := (phase1 src_tree dst_tree).to_move, to_del := (phase1 src_tree dst_tree).to_del, queue_0 := [], queue_1 := [], queue_2 := [], queue_4 := [], ctr := 0 } hdel0 eA heA fA t3 b3 hshA
      have h7e := h7 e0 he0
      have h021 : e0.2.1 = Task.Move f0 t3 := by rw [hsh0]
      rw [h021] at h7e
      have h7e2 : (!(pathStartsWith target t3) || decide (target = t3)) =
          true := h7e
      rw [ht3] at h7e2
      rw [hstart] at h7e2
      simp at h7e2
      exact h7e2
  refine ⟨c0, ?_, ?_, ?_⟩
  · show Task.Move k [tempName c0] ∈
      dedup_move_tasks (phase2 (phase1 src_tree dst_tree)).queue_0
    rw [hphaseC]
    exact hsurv0
  · show Task.Delete P ∈
      dedup_del_tasks (phase2 (phase1 src_tree dst_tree)).queue_1
    rw [hphaseC]
    exact hsurv1
  · show Task.Move [tempName c0] target ∈
      dedup_move_tasks ((phase2 (phase1 src_tree dst_tree)).to_move.map
        (fun pr => pr.2.1))
    rw [hphaseC]
    exact hsurv3

/-- Witness for C2 (amended) at the minimal rescue fixture: `d/x` is
rescued through `.crustasync-0` before `d` is deleted, and the deferred
move into `y` survives into Q3. -/
theorem C2_rescue_amended_witness :
    ((["d", "x"], (Task.Move (["d", "x"]) (["y"]), true)) ∈
        (phase1 srcMini dstMini).to_move ∧
     alGet (["d"]) (phase1 srcMini dstMini).to_del =
        some (Task.Delete (["d"]), false) ∧
     pathStartsWith (["d", "x"]) (["d"]) = true) ∧
    ∃ c, Task.Move (["d", "x"]) [tempName c] ∈
        (build_task_queue srcMini dstMini).getD 0 [] ∧
      Task.Delete (["d"]) ∈ (build_task_queue srcMini dstMini).getD 1 [] ∧
      Task.Move [tempName c] (["y"]) ∈
        (build_task_queue srcMini dstMini).getD 3 [] :=
  ⟨⟨by decide, by decide, by decide⟩,
   C2_rescue_amended srcMini dstMini ["d", "x"] ["d"] ["y"] true
     (((phase1 srcMini dstMini).table.flatMap (fun pr => pr.2)).take 1)
     []
     (((phase1 srcMini dstMini).table.flatMap (fun pr => pr.2)).getD 1 srcMini)
     (by decide) (by decide) (by decide) (by rfl) (by decide) (by decide)
     (by decide) (by decide) (by decide) (by decide) (by decide) (by decide)
     (by decide)⟩

end Crustasync
